import Mathlib

/-!
# Verification of the Macintosh GCR track codec

A shallow embedding of `src/greaseweazle/codec/macintosh/mac_gcr.py`.

Bytes are modelled as `Nat` (values below 256), byte strings as `List Nat`,
bit sequences (the `bitarray` values of the source) as `List Bool` in
big-endian bit order, and Python floats as exact rationals `ℚ`.

The bit-level GCR nibble codec and the per-sector checksum transform
(`optimised.encode_mac_gcr`, `optimised.decode_mac_gcr`,
`optimised.encode_mac_sector`, `optimised.decode_mac_sector`) are external
collaborators of the codec (spec section 6); they are passed in as a
`MacPrims` record of opaque functions, with their documented contracts
taken as hypotheses where theorems need them.

Fallible Python code (IndexError, AssertionError, TypeError, ValueError,
`error.Fatal`) is modelled with `Except PyErr`.
-/

/-- Errors a Python run of the codec can raise. -/
inductive PyErr where
  | indexError
  | assertionError
  | typeError
  | valueError
  | fatal (msg : String)
deriving DecidableEq

/-- Decidable equality of `Except` results. -/
instance instDecEqExcept {ε α : Type _} [DecidableEq ε] [DecidableEq α] :
    DecidableEq (Except ε α) := fun a b =>
  match a, b with
  | .ok x, .ok y => if h : x = y then .isTrue (by rw [h]) else .isFalse (by simp [h])
  | .error x, .error y => if h : x = y then .isTrue (by rw [h]) else .isFalse (by simp [h])
  | .ok _, .error _ => .isFalse (by simp)
  | .error _, .ok _ => .isFalse (by simp)

/-! ## Bit and byte sequence utilities (bitarray semantics) -/

/-- The 8 bits of a byte, most significant first (a big-endian `bitarray`). -/
def byteBits (b : Nat) : List Bool :=
  (List.range 8).map (fun i => b.testBit (7 - i))

/-- Bit sequence of a byte string, as `bitarray.frombytes` produces it. -/
def bytesBits (l : List Nat) : List Bool :=
  (l.map byteBits).flatten

/-- Value of one byte chunk of at most 8 bits; `bitarray.tobytes` pads the
last byte with zero bits on the right. -/
def byteOfChunk (l : List Bool) : Nat :=
  (l.foldl (fun a b => 2 * a + (if b then 1 else 0)) 0) * 2 ^ (8 - l.length)

/-- `bitarray.tobytes`: pack a bit sequence into bytes, eight bits per
byte, zero-padding the final partial byte (`byteOfChunk` of the short
tail). -/
def bitsToBytes : List Bool → List Nat
  | [] => []
  | b0 :: b1 :: b2 :: b3 :: b4 :: b5 :: b6 :: b7 :: rest =>
      byteOfChunk [b0, b1, b2, b3, b4, b5, b6, b7] :: bitsToBytes rest
  | l => [byteOfChunk l]

/-- All start offsets (ascending, overlapping included) at which `pat`
occurs in `hay`, starting numbering at `i`: `bitarray.itersearch` and
`bitarray.search`. -/
def searchAllFrom (pat : List Bool) : List Bool → Nat → List Nat
  | [], _ => []
  | h :: t, i =>
      (if pat.isPrefixOf (h :: t) then [i] else []) ++ searchAllFrom pat t (i + 1)

/-- All occurrences of bit pattern `pat` in `hay`, ascending. -/
def searchAll (hay pat : List Bool) : List Nat :=
  searchAllFrom pat hay 0

/-! ## Module-level constants of mac_gcr.py -/

def default_revs : ℚ := 11 / 10

def self_sync_bytes : List Nat := [0xff, 0x3f, 0xcf, 0xf3, 0xfc, 0xff]

def sector_sync_bytes : List Nat := [0xd5, 0xaa, 0x96]

def data_sync_bytes : List Nat := [0xd5, 0xaa, 0xad]

/-- `sector_sync` bit pattern (big-endian bits of `sector_sync_bytes`). -/
def sector_sync : List Bool := bytesBits sector_sync_bytes

/-- `data_sync` bit pattern (big-endian bits of `data_sync_bytes`). -/
def data_sync : List Bool := bytesBits data_sync_bytes

def seclen : Nat := 524

def enc_seclen : Nat := 703

def format_byte : Nat := 0x22

/-- The 16-byte string repeated in `bad_sector`: the ASCII bytes of
the marker text between dashes. -/
def bad_sector_unit : List Nat :=
  [45, 61, 91, 66, 65, 68, 32, 83, 69, 67, 84, 79, 82, 93, 61, 45]

/-- `bad_sector`: the 16-byte marker repeated 32 times (512 bytes). -/
def bad_sector : List Nat := (List.replicate 32 bad_sector_unit).flatten

/-! ## External GCR primitives (spec section 6), taken as opaque functions -/

/-- The four external byte-codec primitives from `greaseweazle.optimised`.
Their exact mappings are format-defined elsewhere; theorems assume only the
contracts the spec documents for them. -/
structure MacPrims where
  encode_mac_gcr : List Nat → List Nat
  decode_mac_gcr : List Nat → List Nat
  encode_mac_sector : List Nat → List Nat
  decode_mac_sector : List Nat → List Nat × Nat

/-! ## Track configuration: class MacGCRTrackFormat -/

/-- `MacGCRTrackFormat.__init__`: `secs`/`clock` unset, `interleave = 1`,
not finalised. `clock` is held in seconds. -/
structure MacGCRTrackFormat where
  secs : Option Nat := none
  clock : Option ℚ := none
  interleave : Nat := 1
  finalised : Bool := false
deriving DecidableEq

/-- `MacGCRTrackFormat.add_param`. Numeric values are passed as exact
rationals; `secs`/`interleave` truncate to integers like Python `int`,
`clock` is scaled from microseconds to seconds. -/
def MacGCRTrackFormat.add_param (f : MacGCRTrackFormat) (key : String) (val : ℚ) :
    Except PyErr MacGCRTrackFormat :=
  if key = "secs" then .ok { f with secs := some (Int.toNat ⌊val⌋) }
  else if key = "clock" then .ok { f with clock := some (val * (1 / 1000000)) }
  else if key = "interleave" then .ok { f with interleave := Int.toNat ⌊val⌋ }
  else .error (.fatal ("unrecognised track option " ++ key))

/-- `MacGCRTrackFormat.finalise`: idempotent; `error.check` that `secs`
and `clock` have been set. -/
def MacGCRTrackFormat.finalise (f : MacGCRTrackFormat) : Except PyErr MacGCRTrackFormat :=
  if f.finalised then .ok f
  else if f.secs = none then .error (.fatal "number of sectors not specified")
  else if f.clock = none then .error (.fatal "clock period not specified")
  else .ok { f with finalised := true }

/-! ## Sector table: class MacGCR -/

/-- One probing round of the interleave placement: Python
`while sec_map[pos] != -1: pos = (pos + 1) % nsec`.  The fuel is the list
length; by the counting argument proved below a free slot is always found
within `m.length` probes whenever one exists, so the fuel never runs out on
reachable states. -/
def findFreePos (m : List (Option Nat)) : Nat → Nat → Nat
  | pos, 0 => pos
  | pos, f + 1 =>
      match m.getD pos none with
      | none => pos
      | some _ => findFreePos m ((pos + 1) % m.length) f

/-- The placement loop of `MacGCR.__init__`: place logical ids `i`,
`i+1`, ... (`cnt` of them) into the partial map `m`, stepping by
`k` positions (mod `n`) after each placement. -/
def placeLoop (n k : Nat) : Nat → Nat → Nat → List (Option Nat) → List (Option Nat)
  | _, _, 0, m => m
  | pos, i, c + 1, m =>
      let p := findFreePos m pos n
      placeLoop n k ((p + k) % n) (i + 1) c (m.set p (some i))

/-- The interleave map under construction: `-1` entries are `none`. -/
def buildSecMap (n k : Nat) : List (Option Nat) :=
  placeLoop n k 0 0 n (List.replicate n none)

/-- `sec_map` as the final list of logical ids.  Every slot is provably
filled by the placement loop (see `buildSecMap_filled`), so the `-1`
placeholder never survives; `getD 0` only discharges the `Option`. -/
def secMapF (n k : Nat) : List Nat :=
  (buildSecMap n k).map (fun o => o.getD 0)

/-- Per-(cyl, head) sector table state: class `MacGCR`.  `sector` holds an
optional 524-byte buffer per logical id; `sec_map` maps physical slot to
logical id. -/
structure MacGCR where
  cyl : Nat
  head : Nat
  config : MacGCRTrackFormat
  nsec : Nat
  clock : Option ℚ
  sector : List (Option (List Nat))
  sec_map : List Nat
deriving DecidableEq

/-- `MacGCR.__init__`: fails (Python `TypeError` from `[None] * None`)
when the configuration has no sector count; `config.clock` may still be
unset at construction time, it is only read later. -/
def MacGCR.init (cyl head : Nat) (config : MacGCRTrackFormat) : Except PyErr MacGCR :=
  match config.secs with
  | none => .error .typeError
  | some nsec =>
      .ok { cyl := cyl, head := head, config := config, nsec := nsec,
            clock := config.clock,
            sector := List.replicate nsec none,
            sec_map := secMapF nsec config.interleave }

/-- `MacGCRTrackFormat.mk_track`: note that it constructs the track
unconditionally, without consulting `finalised`. -/
def MacGCRTrackFormat.mk_track (f : MacGCRTrackFormat) (cyl head : Nat) :
    Except PyErr MacGCR :=
  MacGCR.init cyl head f

/-- `MacGCR.nr_missing`. -/
def MacGCR.nr_missing (t : MacGCR) : Nat :=
  (t.sector.filter Option.isNone).length

/-- `MacGCR.summary_string`. -/
def MacGCR.summary_string (t : MacGCR) : String :=
  "Macintosh GCR (" ++ toString (t.nsec - t.nr_missing) ++ "/" ++
    toString t.nsec ++ " sectors)"

/-- `MacGCR.has_sec` (and the private `MacGCR.exists`): Python raises
IndexError on an out-of-range id. -/
def MacGCR.has_sec (t : MacGCR) (sec_id : Nat) : Except PyErr Bool :=
  match t.sector.get? sec_id with
  | none => .error .indexError
  | some s => .ok s.isSome

/-- `MacGCR.get_img_track`: 512 data bytes per sector in logical order,
dropping the 12 tag bytes, `bad_sector` filler for missing slots. -/
def MacGCR.get_img_track (t : MacGCR) : List Nat :=
  t.sector.foldl
    (fun tdat sec => tdat ++ (match sec with
      | some s => s.drop 12
      | none => bad_sector)) []

/-- `MacGCR.set_img_track`: zero-pad the image up to `nsec * 512` bytes,
then store every slot as 12 zero tag bytes plus its 512-byte slice.
Returns `(totsize, new table)`. -/
def MacGCR.set_img_track (t : MacGCR) (tdat : List Nat) : Nat × MacGCR :=
  let totsize := t.nsec * 512
  let tdat2 := if tdat.length < totsize
               then tdat ++ List.replicate (totsize - tdat.length) 0
               else tdat
  let sector := (List.range t.nsec).foldl
    (fun s sec =>
      s.set sec (some (List.replicate 12 0 ++ (tdat2.drop (sec * 512)).take 512)))
    t.sector
  (totsize, { t with sector := sector })

/-! ## Track decoder: MacGCR.decode_raw -/

/-- The private `MacGCR.add`: Python first evaluates
`self.sector[sec_id]` (IndexError when out of range), then
`assert not self.exists(sec_id)` (AssertionError on a populated slot),
then stores the buffer. -/
def macAdd (sector : List (Option (List Nat))) (sec_id : Nat) (data : List Nat) :
    Except PyErr (List (Option (List Nat))) :=
  match sector.get? sec_id with
  | none => .error .indexError
  | some (some _) => .error .assertionError
  | some none => .ok (sector.set sec_id (some data))

/-- The raw (still GCR-encoded) 5 header bytes read at a sector-sync
match: `bits[offs+24 : offs+64].tobytes()`. -/
def rawHdrAt (bits : List Bool) (offs0 : Nat) : List Nat :=
  bitsToBytes (((bits.drop (offs0 + 3 * 8)).take (5 * 8)))

/-- The decoded header at a sector-sync match. -/
def hdrAt (P : MacPrims) (bits : List Bool) (offs0 : Nat) : List Nat :=
  P.decode_mac_gcr (rawHdrAt bits offs0)

/-- The header XOR checksum at a sector-sync match:
`sum = 0; for x in hdr: sum ^= x`. -/
def hdrXorAt (P : MacPrims) (bits : List Bool) (offs0 : Nat) : Nat :=
  (hdrAt P bits offs0).foldl Nat.xor 0

/-- Offsets of the data-sync pattern in the 100-byte window searched after
the header: `bits[offs+64 : offs+864].search(data_sync)`. -/
def datOffsAt (bits : List Bool) (offs0 : Nat) : List Nat :=
  searchAll ((bits.drop (offs0 + 8 * 8)).take (100 * 8)) data_sync

/-- The decoded (sector buffer, checksum residual) pair at a sector-sync
match, reading 703 raw bytes from 4 bytes past the first data-sync
occurrence in the window. -/
def dataDecAt (P : MacPrims) (bits : List Bool) (offs0 : Nat) : List Nat × Nat :=
  let offs := offs0 + 8 * 8 + (datOffsAt bits offs0).headD 0 + 4 * 8
  P.decode_mac_sector (P.decode_mac_gcr (bitsToBytes ((bits.drop offs).take (703 * 8))))

/-- The body of one iteration of the `decode_raw` match loop, for the
sector-sync occurrence at bit offset `offs0`.  Mirrors the source line by
line; each failed check abandons the match (`continue`), leaving the
table unchanged.  The identity comparison of cylinder/side/format and the
range check on the sector id only print a diagnostic in the source — they
do not abandon the match and have no effect on the state, so they do not
appear here. -/
def processMatch (P : MacPrims) (bits : List Bool)
    (sector : List (Option (List Nat))) (offs0 : Nat) :
    Except PyErr (List (Option (List Nat))) :=
  let sec := rawHdrAt bits offs0
  if sec.length ≠ 5 then .ok sector else
  let hdr := P.decode_mac_gcr sec
  if hdr.foldl Nat.xor 0 ≠ 0 then .ok sector else
  match hdr with
  | _cylb :: sec_id :: _side :: _fmt :: _ =>
      let dat_offs := datOffsAt bits offs0
      if dat_offs.length ≠ 1 then .ok sector else
      let dec := dataDecAt P bits offs0
      if dec.2 ≠ 0 then .ok sector else
      macAdd sector sec_id dec.1
  | _ => .error .valueError

/-- The `decode_raw` match loop over the ascending sector-sync offsets:
stops in success as soon as no sector is missing, otherwise processes each
match in turn. -/
def decodeLoop (P : MacPrims) (bits : List Bool) :
    List Nat → List (Option (List Nat)) → Except PyErr (List (Option (List Nat)))
  | [], sector => .ok sector
  | offs :: rest, sector =>
      if (sector.filter Option.isNone).length = 0 then .ok sector
      else
        match processMatch P bits sector offs with
        | .error e => .error e
        | .ok s2 => decodeLoop P bits rest s2

/-- `MacGCR.decode_raw`.  The flux-to-bit-cell transcoding performed by
`RawTrack`/`get_all_data` is an external collaborator (spec section 6);
this consumes the recovered bit sequence directly. -/
def MacGCR.decode_raw (P : MacPrims) (t : MacGCR) (bits : List Bool) :
    Except PyErr MacGCR :=
  match decodeLoop P bits (searchAll bits sector_sync) t.sector with
  | .error e => .error e
  | .ok s => .ok { t with sector := s }

/-! ## Track encoder: MacGCR.raw_track -/

/-- `time_per_rev = 0.2`, as an exact rational. -/
def time_per_rev : ℚ := 1 / 5

/-- Nominal bit count of one rotation:
`int(self.time_per_rev / self.clock) & ~31` (the low five bits cleared). -/
def tlenBits (clock : ℚ) : Nat :=
  ((Int.toNat ⌊time_per_rev / clock⌋) / 32) * 32

/-- The bytes emitted for one physical slot holding logical sector
`sec_id` with (tag + data) buffer `data` (the stored buffer, or 12 zero
bytes plus `bad_sector` for an empty slot). -/
def sectorBlock (P : MacPrims) (cyl head sec_id : Nat) (data : List Nat) : List Nat :=
  let side := (head <<< 5) ||| (cyl >>> 6)
  let cylLow := cyl &&& 0x3f
  let hdr := [cylLow, sec_id, side, 0x22]
  let sum := hdr.foldl Nat.xor 0
  (List.replicate 6 self_sync_bytes).flatten ++
  sector_sync_bytes ++
  P.encode_mac_gcr (hdr ++ [sum]) ++
  [0xde, 0xaa, 0xff, 0xff] ++
  self_sync_bytes ++
  data_sync_bytes ++
  P.encode_mac_gcr [sec_id] ++
  P.encode_mac_gcr (P.encode_mac_sector data) ++
  [0xde, 0xaa, 0xff]

/-- The post-index track gap: 64 filler bytes then 20 self-sync groups. -/
def trackGap : List Nat :=
  List.replicate 64 0x96 ++ (List.replicate 20 self_sync_bytes).flatten

/-- `MacGCR.raw_track`, producing the byte string of one full rotation
(the source wraps it in a `MasterTrack` with `time_per_rev = 0.2`, the
verify hook and `verify_revs`; only the bit content is modelled).  Python
raises IndexError on an out-of-range `sec_map` entry and TypeError when
`clock` is unset; note that a track longer than `tlen` is NOT an error:
the padding byte count `tlen//8 - len(t)` is negative and Python emits no
padding at all. -/
def MacGCR.raw_track (P : MacPrims) (t : MacGCR) : Except PyErr (List Nat) :=
  match t.sec_map.foldlM
      (fun acc sec_id =>
        (match t.sector.get? sec_id with
        | none => Except.error PyErr.indexError
        | some sec =>
            let data := match sec with
              | none => List.replicate 12 0 ++ bad_sector
              | some s => s
            Except.ok (acc ++ sectorBlock P t.cyl t.head sec_id data) :
          Except PyErr (List Nat)))
      trackGap with
  | .error e => .error e
  | .ok body =>
      match t.clock with
      | none => .error .typeError
      | some c =>
          let body2 := body ++ [0xff, 0xff, 0xff, 0xff]
          .ok (body2 ++ List.replicate (tlenBits c / 8 - body2.length) 0x96)

/-- `MacGCR.verify_track`: builds a fresh readback table from the same
configuration and compares.  Note that the supplied readback flux is never
decoded (nor used at all) before the comparison. -/
def MacGCR.verify_track (t : MacGCR) (flux : List Bool) : Except PyErr Bool :=
  match MacGCR.init t.cyl t.head t.config with
  | .error e => .error e
  | .ok readback_track =>
      .ok (decide (readback_track.nr_missing = 0 ∧ t.sector = readback_track.sector))

/-! ## Concrete primitives and tables used by witnesses and counterexamples -/

/-- A simplest instantiation of the external primitives satisfying the
mutual-inverse contract: identity GCR byte map, and a sector transform
that pads with 179 zero bytes and always reports a zero residual (a zero
residual on valid data, as the contract asks). -/
def idPrims : MacPrims where
  encode_mac_gcr := fun l => l
  decode_mac_gcr := fun l => l
  encode_mac_sector := fun d => d ++ List.replicate 179 0
  decode_mac_sector := fun s => (s.take 524, 0)

/-- A byte-respecting instantiation of the external primitives: like
`idPrims` but truncating outputs into byte range, so that encoder outputs
are genuine bytes. -/
def wPrims : MacPrims where
  encode_mac_gcr := fun l => l.map (· % 256)
  decode_mac_gcr := fun l => l
  encode_mac_sector := fun d => (d ++ List.replicate 179 0).map (· % 256)
  decode_mac_sector := fun s => (s.take 524, 0)

/-- A finalised one-sector configuration whose clock makes the nominal
rotation exactly 7616 bit cells — the exact content length of a one-sector
track, so the encoder emits no padding. -/
def cfg1 : MacGCRTrackFormat :=
  { secs := some 1, clock := some (1 / 38080), interleave := 1, finalised := true }

/-- The fresh (empty) sector table `MacGCR.init 0 0 cfg1` produces. -/
def freshEx1 : MacGCR :=
  { cyl := 0, head := 0, config := cfg1, nsec := 1, clock := some (1 / 38080),
    sector := [none], sec_map := secMapF 1 1 }

/-- `freshEx1` with its single sector populated with 524 zero bytes. -/
def tEx1 : MacGCR := { freshEx1 with sector := [some (List.replicate 524 0)] }

/-- The encoded track bytes of `tEx1` (952 bytes, one rotation; the clock
of `cfg1` makes the padding empty).  Proven equal to the encoder output in
`raw_track_tEx1`. -/
def trackBytesEx1 : List Nat :=
  trackGap ++ sectorBlock idPrims 0 0 0 (List.replicate 524 0) ++ [0xff, 0xff, 0xff, 0xff]

/-- A finalised two-sector configuration whose clock makes the nominal
rotation exactly 13728 bit cells — the exact content length of a
two-sector track. -/
def cfg2 : MacGCRTrackFormat :=
  { secs := some 2, clock := some (1 / 68640), interleave := 1, finalised := true }

/-- Sector 0 content for the round-trip counterexample: a 524-byte buffer
that embeds, 158 bytes in, a spurious sector-sync, a checksum-valid header
claiming sector id 1, and a data-sync — data that the identity
primitives lay on the track verbatim. -/
def cexContent0 : List Nat :=
  List.replicate 158 0 ++
  [0xd5, 0xaa, 0x96] ++
  [0x00, 0x01, 0x00, 0x22, 0x23] ++
  [0xde, 0xaa, 0xff, 0xff] ++
  self_sync_bytes ++
  [0xd5, 0xaa, 0xad] ++
  [0x01] ++
  List.replicate 344 0

/-- Sector 1 content for the round-trip counterexample. -/
def cexContent1 : List Nat := List.replicate 524 1

/-- A fully populated two-sector table holding the adversarial contents. -/
def tCex : MacGCR :=
  { cyl := 0, head := 0, config := cfg2, nsec := 2, clock := some (1 / 68640),
    sector := [some cexContent0, some cexContent1], sec_map := secMapF 2 1 }

/-- The encoded track bytes of `tCex` (1716 bytes, one rotation; the
clock of `cfg2` makes the padding empty).  Proven equal to the encoder
output in `raw_track_tCex`. -/
def trackBytesCex : List Nat :=
  trackGap ++ sectorBlock idPrims 0 0 0 cexContent0 ++
    sectorBlock idPrims 0 0 1 cexContent1 ++ [0xff, 0xff, 0xff, 0xff]

/-- A raw bit sequence holding a single sector-sync match whose header is
checksum-valid but claims the out-of-range sector id 1 on a one-sector
track, followed by a unique data-sync and a decodable data block. -/
def bitsOutOfRange : List Bool :=
  bytesBits ([0xd5, 0xaa, 0x96] ++ [0x00, 0x01, 0x00, 0x22, 0x23] ++
    [0xde, 0xaa, 0xff, 0xff] ++ self_sync_bytes ++ [0xd5, 0xaa, 0xad] ++
    [0x00] ++ List.replicate 703 0)

/-! ## Generic bit/byte lemmas -/

theorem byteBits_length (b : Nat) : (byteBits b).length = 8 := by
  simp [byteBits]

theorem bytesBits_nil : bytesBits [] = [] := rfl

theorem bytesBits_cons (x : Nat) (l : List Nat) :
    bytesBits (x :: l) = byteBits x ++ bytesBits l := by
  simp [bytesBits]

theorem bytesBits_append (l₁ l₂ : List Nat) :
    bytesBits (l₁ ++ l₂) = bytesBits l₁ ++ bytesBits l₂ := by
  simp [bytesBits]

theorem bytesBits_length (l : List Nat) : (bytesBits l).length = 8 * l.length := by
  induction l with
  | nil => rfl
  | cons x t ih =>
      rw [bytesBits_cons, List.length_append, byteBits_length, ih, List.length_cons]
      ring

theorem bytesBits_drop (a : Nat) (l : List Nat) :
    (bytesBits l).drop (8 * a) = bytesBits (l.drop a) := by
  induction a generalizing l with
  | zero => simp
  | succ n ih =>
      cases l with
      | nil => simp [bytesBits_nil]
      | cons x t =>
          rw [bytesBits_cons]
          have h8 : 8 * (n + 1) = (byteBits x).length + 8 * n := by
            rw [byteBits_length]; ring
          rw [h8, List.drop_append, ih, List.drop_succ_cons]

theorem bytesBits_take (b : Nat) (l : List Nat) :
    (bytesBits l).take (8 * b) = bytesBits (l.take b) := by
  induction b generalizing l with
  | zero => simp [bytesBits_nil]
  | succ n ih =>
      cases l with
      | nil => simp [bytesBits_nil]
      | cons x t =>
          rw [bytesBits_cons]
          have h8 : 8 * (n + 1) = (byteBits x).length + 8 * n := by
            rw [byteBits_length]; ring
          rw [h8, List.take_append, ih, List.take_succ_cons, bytesBits_cons]

set_option maxRecDepth 20000 in
theorem byteOfChunk_byteBits : ∀ b < 256, byteOfChunk (byteBits b) = b := by decide

theorem bitsToBytes_byte (x : Nat) (R : List Bool) :
    bitsToBytes (byteBits x ++ R) = byteOfChunk (byteBits x) :: bitsToBytes R := rfl

theorem bitsToBytes_bytesBits :
    ∀ l : List Nat, (∀ b ∈ l, b < 256) → bitsToBytes (bytesBits l) = l := by
  intro l
  induction l with
  | nil => intro; rfl
  | cons x t ih =>
      intro h
      rw [bytesBits_cons, bitsToBytes_byte, byteOfChunk_byteBits x (h x (by simp)),
        ih (fun b hb => h b (by simp [hb]))]

/-! ## Chunked search evaluation

`searchAllFrom` recurses once per bit position, too deep for kernel
evaluation on full tracks, so concrete searches are evaluated through a
byte-chunked equivalent, `searchB8`, justified by the lemmas below. -/

/-- Occurrences of `pat` among the first `cnt` positions of `l` only. -/
def searchCnt (pat : List Bool) : List Bool → Nat → Nat → List Nat
  | _, _, 0 => []
  | l, i, c + 1 =>
      (if pat.isPrefixOf l then [i] else []) ++ searchCnt pat l.tail (i + 1) c

theorem searchAllFrom_eq_searchCnt (pat : List Bool) (hp : pat ≠ []) :
    ∀ l i, searchAllFrom pat l i = searchCnt pat l i l.length := by
  intro l
  induction l with
  | nil =>
      intro i
      simp [searchAllFrom, searchCnt]
  | cons h t ih =>
      intro i
      rw [searchAllFrom, List.length_cons, searchCnt]
      simp only [List.tail_cons]
      rw [ih]

theorem searchCnt_add (pat : List Bool) (m : Nat) :
    ∀ n l i, searchCnt pat l i (m + n) = searchCnt pat l i m ++ searchCnt pat (l.drop m) (i + m) n := by
  induction m with
  | zero => intro n l i; simp [searchCnt]
  | succ k ih =>
      intro n l i
      have h1 : k + 1 + n = (k + n) + 1 := by ring
      rw [h1, searchCnt, searchCnt, ih n l.tail (i + 1)]
      have h2 : l.tail.drop k = l.drop (k + 1) := by
        cases l with
        | nil => simp
        | cons a t => simp
      have h3 : i + 1 + k = i + (k + 1) := by ring
      rw [h2, h3, List.append_assoc]

theorem isPrefixOf_take (pat : List Bool) :
    ∀ l : List Bool, ∀ M, pat.length ≤ M → (pat.isPrefixOf (l.take M)) = (pat.isPrefixOf l) := by
  induction pat with
  | nil => intro l M _; simp [List.isPrefixOf]
  | cons p ps ih =>
      intro l M hM
      cases M with
      | zero => simp at hM
      | succ M =>
          cases l with
          | nil => simp
          | cons x t =>
              rw [List.take_succ_cons]
              simp only [List.isPrefixOf]
              rw [ih t M (by simpa using hM)]

theorem searchCnt_take (pat : List Bool) (hp : pat ≠ []) :
    ∀ n l i M, n - 1 + pat.length ≤ M → searchCnt pat (l.take M) i n = searchCnt pat l i n := by
  intro n
  induction n with
  | zero => intro l i M _; simp [searchCnt]
  | succ k ih =>
      intro l i M hM
      rw [searchCnt, searchCnt]
      have hplen : pat.length ≤ M := by omega
      rw [isPrefixOf_take pat l M hplen]
      congr 1
      cases k with
      | zero => simp [searchCnt]
      | succ k2 =>
          have hM1 : 1 ≤ M := by
            have := List.length_pos.mpr hp
            omega
          have htail : (l.take M).tail = l.tail.take (M - 1) := by
            cases l with
            | nil => simp
            | cons a t =>
                cases M with
                | zero => omega
                | succ M => simp
          rw [htail, ih l.tail (i + 1) (M - 1) (by omega)]

/-- Byte-chunked search: handles 64 bit positions per step, looking at a
15-byte window, so kernel evaluation recurses one frame per 8 input
bytes. -/
def searchB8 (pat : List Bool) : List Nat → Nat → List Nat
  | b0 :: b1 :: b2 :: b3 :: b4 :: b5 :: b6 :: b7 :: rest, i =>
      searchCnt pat (bytesBits ((b0 :: b1 :: b2 :: b3 :: b4 :: b5 :: b6 :: b7 :: rest).take 15)) i 64 ++
      searchB8 pat rest (i + 64)
  | l, i => searchAllFrom pat (bytesBits l) i

theorem searchB8_eq (pat : List Bool) (hp : pat ≠ []) (hlen : pat.length ≤ 57) :
    ∀ l i, searchB8 pat l i = searchAllFrom pat (bytesBits l) i := by
  intro l i
  induction l, i using searchB8.induct pat with
  | case1 b0 b1 b2 b3 b4 b5 b6 b7 rest i ih =>
      set l := b0 :: b1 :: b2 :: b3 :: b4 :: b5 :: b6 :: b7 :: rest with hl
      have hlen8 : (bytesBits l).length = 64 + 8 * rest.length := by
        rw [bytesBits_length]; simp [hl]; ring
      rw [searchAllFrom_eq_searchCnt pat hp, hlen8, searchCnt_add pat 64]
      have hdrop : (bytesBits l).drop 64 = bytesBits rest := by
        have h64 : (64 : Nat) = 8 * 8 := by norm_num
        rw [h64, bytesBits_drop]
        simp [hl]
      have htake : searchCnt pat (bytesBits l) i 64 =
          searchCnt pat (bytesBits (l.take 15)) i 64 := by
        have h120 : (120 : Nat) = 8 * 15 := by norm_num
        rw [← bytesBits_take 15 l]
        rw [searchCnt_take pat hp 64 (bytesBits l) i (8 * 15) (by omega)]
      rw [hdrop, ← bytesBits_length rest,
        ← searchAllFrom_eq_searchCnt pat hp (bytesBits rest) (i + 64), ← ih]
      rw [searchB8, htake]
  | case2 l i hne =>
      rw [searchB8]
      exact hne

theorem searchAll_eq_searchB8 (l : List Nat) (pat : List Bool) (hp : pat ≠ [])
    (hlen : pat.length ≤ 57) : searchAll (bytesBits l) pat = searchB8 pat l 0 :=
  (searchB8_eq pat hp hlen l 0).symm

theorem tlenBits_cfg1 : tlenBits (1 / 38080) = 7616 := by
  have h : time_per_rev / ((1 : ℚ) / 38080) = (7616 : ℚ) := by
    norm_num [time_per_rev]
  rw [tlenBits, h]
  decide

theorem tlenBits_cfg2 : tlenBits (1 / 68640) = 13728 := by
  have h : time_per_rev / ((1 : ℚ) / 68640) = (13728 : ℚ) := by
    norm_num [time_per_rev]
  rw [tlenBits, h]
  decide

/-- The buffer the encoder lays down for logical sector `sec_id`: the
stored buffer, or 12 zero tag bytes plus `bad_sector` when missing. -/
def MacGCR.dataOf (t : MacGCR) (sec_id : Nat) : List Nat :=
  match t.sector.getD sec_id none with
  | none => List.replicate 12 0 ++ bad_sector
  | some s => s

theorem foldlM_blocks (P : MacPrims) (t : MacGCR) :
    ∀ (ids : List Nat) (acc : List Nat), (∀ id ∈ ids, id < t.sector.length) →
    (ids.foldlM
      (fun acc sec_id =>
        (match t.sector.get? sec_id with
        | none => Except.error PyErr.indexError
        | some sec =>
            let data := match sec with
              | none => List.replicate 12 0 ++ bad_sector
              | some s => s
            Except.ok (acc ++ sectorBlock P t.cyl t.head sec_id data) :
          Except PyErr (List Nat)))
      acc)
      = .ok (acc ++ (ids.map (fun id => sectorBlock P t.cyl t.head id (t.dataOf id))).flatten) := by
  intro ids
  induction ids with
  | nil => intro acc _; simp [List.foldlM, pure, Except.pure]
  | cons id rest ih =>
      intro acc hmem
      have hid : id < t.sector.length := hmem id (by simp)
      obtain ⟨sec, hsec⟩ : ∃ sec, t.sector.get? id = some sec := by
        refine ⟨t.sector[id], ?_⟩
        rw [List.get?_eq_getElem?]
        exact List.getElem?_eq_some_iff.mpr ⟨hid, rfl⟩
      have hdata : t.dataOf id = (match sec with
          | none => List.replicate 12 0 ++ bad_sector
          | some s => s) := by
        simp only [MacGCR.dataOf, List.getD, hsec, Option.getD]
        cases sec <;> rfl
      rw [List.foldlM]
      cases sec with
      | none =>
          simp only [hsec, bind, Except.bind]
          rw [ih (acc ++ sectorBlock P t.cyl t.head id (List.replicate 12 0 ++ bad_sector))
            (fun i hi => hmem i (by simp [hi]))]
          simp only [List.map_cons, List.flatten_cons, hdata]
          rw [List.append_assoc]
      | some sdat =>
          simp only [hsec, bind, Except.bind]
          rw [ih (acc ++ sectorBlock P t.cyl t.head id sdat)
            (fun i hi => hmem i (by simp [hi]))]
          simp only [List.map_cons, List.flatten_cons, hdata]
          rw [List.append_assoc]

/-- Successful unfolding of `raw_track`: with the clock set and every
`sec_map` entry in range, the encoder output is the gap, then one block
per physical slot, the end marker, and filler padding. -/
theorem raw_track_ok (P : MacPrims) (t : MacGCR) (c : ℚ) (hc : t.clock = some c)
    (hmem : ∀ id ∈ t.sec_map, id < t.sector.length) :
    MacGCR.raw_track P t = .ok (
      ((trackGap ++ (t.sec_map.map (fun id => sectorBlock P t.cyl t.head id (t.dataOf id))).flatten)
        ++ [0xff, 0xff, 0xff, 0xff]) ++
      List.replicate (tlenBits c / 8 -
        (((trackGap ++ (t.sec_map.map (fun id => sectorBlock P t.cyl t.head id (t.dataOf id))).flatten).length + 4))) 0x96) := by
  rw [MacGCR.raw_track, foldlM_blocks P t t.sec_map trackGap hmem, hc]
  simp
  omega

set_option maxRecDepth 40000 in
theorem raw_track_tEx1 : MacGCR.raw_track idPrims tEx1 = .ok trackBytesEx1 := by
  have hsm : tEx1.sec_map = [0] := by decide
  have hdf : tEx1.dataOf 0 = List.replicate 524 0 := by decide
  have hb : (trackGap ++ (sectorBlock idPrims 0 0 0 (List.replicate 524 0) ++ [])).length = 948 := by
    decide
  rw [raw_track_ok idPrims tEx1 (1 / 38080) rfl (by rw [hsm]; decide)]
  rw [hsm]
  simp only [List.map_cons, List.map_nil, List.flatten_cons, List.flatten_nil, hdf,
    show tEx1.cyl = 0 from rfl, show tEx1.head = 0 from rfl]
  rw [tlenBits_cfg1, hb]
  norm_num [trackBytesEx1, List.append_assoc]

set_option maxRecDepth 40000 in
theorem raw_track_tCex : MacGCR.raw_track idPrims tCex = .ok trackBytesCex := by
  have hsm : tCex.sec_map = [0, 1] := by decide
  have hdf0 : tCex.dataOf 0 = cexContent0 := by decide
  have hdf1 : tCex.dataOf 1 = cexContent1 := by decide
  have hb : (trackGap ++ (sectorBlock idPrims 0 0 0 cexContent0 ++
      (sectorBlock idPrims 0 0 1 cexContent1 ++ []))).length = 1712 := by decide
  rw [raw_track_ok idPrims tCex (1 / 68640) rfl (by rw [hsm]; decide)]
  rw [hsm]
  simp only [List.map_cons, List.map_nil, List.flatten_cons, List.flatten_nil, hdf0, hdf1,
    show tCex.cyl = 0 from rfl, show tCex.head = 0 from rfl]
  rw [tlenBits_cfg2, hb]
  norm_num [trackBytesCex, List.append_assoc]

/-! ## Loop equations and concrete decode evaluation -/

theorem decodeLoop_nil (P : MacPrims) (bits : List Bool) (s : List (Option (List Nat))) :
    decodeLoop P bits [] s = .ok s := rfl

theorem decodeLoop_cons (P : MacPrims) (bits : List Bool) (o : Nat) (rest : List Nat)
    (s : List (Option (List Nat))) :
    decodeLoop P bits (o :: rest) s =
      if (s.filter Option.isNone).length = 0 then .ok s
      else
        match processMatch P bits s o with
        | .error e => .error e
        | .ok s2 => decodeLoop P bits rest s2 := rfl

/-- The sector stored by the spurious sync match of the round-trip
counterexample: 524 bytes read starting at track byte 422, mostly the
zero tail of `cexContent0`. -/
def cexStored : List Nat := (trackBytesCex.drop 422).take 524

set_option maxRecDepth 1000000 in
theorem cex_hdr1 : rawHdrAt (bytesBits trackBytesCex) 1760 = [0, 0, 0, 0x22, 0x22] := by
  rw [rawHdrAt, show (1760 + 3 * 8 : Nat) = 8 * 223 from by norm_num, bytesBits_drop,
    show (5 * 8 : Nat) = 8 * 5 from by norm_num, bytesBits_take]
  decide

set_option maxRecDepth 1000000 in
theorem cex_win1 : datOffsAt (bytesBits trackBytesCex) 1760 = [80] := by
  rw [datOffsAt, show (1760 + 8 * 8 : Nat) = 8 * 228 from by norm_num, bytesBits_drop,
    show (100 * 8 : Nat) = 8 * 100 from by norm_num, bytesBits_take,
    searchAll_eq_searchB8 _ _ (by decide) (by decide)]
  decide

set_option maxRecDepth 1000000 in
theorem cex_dat1 : dataDecAt idPrims (bytesBits trackBytesCex) 1760 = (cexContent0, 0) := by
  rw [dataDecAt, cex_win1]
  rw [show (1760 + 8 * 8 + List.headD [80] 0 + 4 * 8 : Nat) = 8 * 242 from by norm_num,
    bytesBits_drop, show (703 * 8 : Nat) = 8 * 703 from by norm_num, bytesBits_take]
  decide

set_option maxRecDepth 1000000 in
theorem cex_hdr2 : rawHdrAt (bytesBits trackBytesCex) 3200 = [0, 1, 0, 0x22, 0x23] := by
  rw [rawHdrAt, show (3200 + 3 * 8 : Nat) = 8 * 403 from by norm_num, bytesBits_drop,
    show (5 * 8 : Nat) = 8 * 5 from by norm_num, bytesBits_take]
  decide

set_option maxRecDepth 1000000 in
theorem cex_win2 : datOffsAt (bytesBits trackBytesCex) 3200 = [80] := by
  rw [datOffsAt, show (3200 + 8 * 8 : Nat) = 8 * 408 from by norm_num, bytesBits_drop,
    show (100 * 8 : Nat) = 8 * 100 from by norm_num, bytesBits_take,
    searchAll_eq_searchB8 _ _ (by decide) (by decide)]
  decide

set_option maxRecDepth 1000000 in
theorem cex_dat2 : dataDecAt idPrims (bytesBits trackBytesCex) 3200 = (cexStored, 0) := by
  rw [dataDecAt, cex_win2]
  rw [show (3200 + 8 * 8 + List.headD [80] 0 + 4 * 8 : Nat) = 8 * 422 from by norm_num,
    bytesBits_drop, show (703 * 8 : Nat) = 8 * 703 from by norm_num, bytesBits_take]
  rw [cexStored]
  decide

set_option maxRecDepth 1000000 in
theorem cex_search : searchAll (bytesBits trackBytesCex) sector_sync = [1760, 3200, 7872] := by
  rw [searchAll_eq_searchB8 _ _ (by decide) (by decide)]
  decide

set_option maxRecDepth 1000000 in
theorem cex_match1 : processMatch idPrims (bytesBits trackBytesCex) [none, none] 1760 =
    .ok [some cexContent0, none] := by
  rw [processMatch, cex_hdr1, cex_win1, cex_dat1]
  decide

set_option maxRecDepth 1000000 in
theorem cex_match2 : processMatch idPrims (bytesBits trackBytesCex) [some cexContent0, none] 3200 =
    .ok [some cexContent0, some cexStored] := by
  rw [processMatch, cex_hdr2, cex_win2, cex_dat2]
  decide

set_option maxRecDepth 1000000 in
theorem cex_loop : decodeLoop idPrims (bytesBits trackBytesCex) [1760, 3200, 7872] [none, none]
    = .ok [some cexContent0, some cexStored] := by
  rw [decodeLoop_cons, if_neg (by decide), cex_match1]
  show decodeLoop idPrims (bytesBits trackBytesCex) [3200, 7872] [some cexContent0, none] = _
  rw [decodeLoop_cons, if_neg (by decide), cex_match2]
  show decodeLoop idPrims (bytesBits trackBytesCex) [7872] [some cexContent0, some cexStored] = _
  rw [decodeLoop_cons, if_pos (by decide)]

set_option maxRecDepth 1000000 in
theorem cex_decode : MacGCR.decode_raw idPrims { tCex with sector := List.replicate 2 none }
    (bytesBits trackBytesCex) = .ok { tCex with sector := [some cexContent0, some cexStored] } := by
  rw [MacGCR.decode_raw, cex_search]
  show (match decodeLoop idPrims (bytesBits trackBytesCex) [1760, 3200, 7872] [none, none] with
    | .error e => (.error e : Except PyErr MacGCR)
    | .ok s => .ok { tCex with sector := s }) = _
  rw [cex_loop]

theorem idPrims_gcr_inv : ∀ l, idPrims.decode_mac_gcr (idPrims.encode_mac_gcr l) = l :=
  fun _ => rfl

theorem idPrims_sector_inv :
    ∀ d : List Nat, d.length = 524 → idPrims.decode_mac_sector (idPrims.encode_mac_sector d) = (d, 0) := by
  intro d hd
  show ((d ++ List.replicate 179 0).take 524, 0) = (d, 0)
  rw [← hd, List.take_left]

/-- The round-trip property exactly as claimed: for mutually inverse
primitives (with zero residual on valid data), encoding any fully
populated, finalised table and re-decoding the bit sequence into a fresh
table of the same cylinder, head and configuration recovers every sector
byte-for-byte. -/
def C1RoundTripClaim : Prop :=
  ∀ P : MacPrims,
    (∀ l, P.decode_mac_gcr (P.encode_mac_gcr l) = l) →
    (∀ d : List Nat, d.length = 524 → P.decode_mac_sector (P.encode_mac_sector d) = (d, 0)) →
    ∀ t : MacGCR, ∀ tb : List Nat,
      t.config.finalised = true →
      t.sector.length = t.nsec →
      (∀ s ∈ t.sector, ∃ d, s = some d ∧ d.length = 524) →
      MacGCR.raw_track P t = .ok tb →
      MacGCR.decode_raw P { t with sector := List.replicate t.nsec none } (bytesBits tb) = .ok t

set_option maxRecDepth 1000000 in
/-- C1: the round-trip claim is false as stated.  With the (mutually
inverse, length preserving, byte valued) identity primitives, sector 0 of
`tCex` embeds a spurious sector-sync with a checksum-valid header claiming
sector id 1; the decoder stores 524 wrong bytes into slot 1 from that
spurious match and then stops, so the decoded table differs from the
source at slot 1. -/
theorem C1_counterexample : ¬ C1RoundTripClaim := by
  intro h
  have hfp : ∀ s ∈ tCex.sector, ∃ d, s = some d ∧ d.length = 524 := by
    intro s hs
    simp [tCex] at hs
    rcases hs with h1 | h1 <;> subst h1
    · exact ⟨cexContent0, rfl, by decide⟩
    · exact ⟨cexContent1, rfl, by decide⟩
  have hc := h idPrims idPrims_gcr_inv idPrims_sector_inv tCex trackBytesCex rfl (by decide)
    hfp raw_track_tCex
  have hcc : (Except.ok { tCex with sector := [some cexContent0, some cexStored] } :
      Except PyErr MacGCR) = Except.ok tCex := cex_decode.symm.trans hc
  have h2 := congrArg (fun r : Except PyErr MacGCR =>
    match r with
    | Except.ok t => t.sector
    | Except.error _ => []) hcc
  exact absurd h2 (by decide)

/-! ## Structure of an encoded sector block -/

/-- The 5 logical header bytes the encoder GCR-encodes for a sector:
low cylinder bits, sector id, side byte, format byte, XOR checksum. -/
def hdrBytes (cyl head sec_id : Nat) : List Nat :=
  let side := (head <<< 5) ||| (cyl >>> 6)
  let cylLow := cyl &&& 0x3f
  let hdr := [cylLow, sec_id, side, 0x22]
  hdr ++ [hdr.foldl Nat.xor 0]

/-- The 39 bytes preceding the encoded header in a block: six self-sync
groups and the sector-sync mark. -/
def blockPre : List Nat := (List.replicate 6 self_sync_bytes).flatten ++ sector_sync_bytes

/-- The 13 bytes between encoded header and encoded sector id: header
trailer, one self-sync group, and the data-sync mark. -/
def midBytes : List Nat := [0xde, 0xaa, 0xff, 0xff] ++ self_sync_bytes ++ data_sync_bytes

theorem sectorBlock_decomp (P : MacPrims) (cyl head sec_id : Nat) (data : List Nat) :
    sectorBlock P cyl head sec_id data =
      blockPre ++ P.encode_mac_gcr (hdrBytes cyl head sec_id) ++ midBytes ++
      P.encode_mac_gcr [sec_id] ++ P.encode_mac_gcr (P.encode_mac_sector data) ++
      [0xde, 0xaa, 0xff] := by
  simp [sectorBlock, hdrBytes, blockPre, midBytes, List.append_assoc]

theorem hdrBytes_length (cyl head sec_id : Nat) : (hdrBytes cyl head sec_id).length = 5 := by
  simp [hdrBytes]

theorem foldl_xor_lt (n : Nat) :
    ∀ (l : List Nat) (a : Nat), a < 2 ^ n → (∀ b ∈ l, b < 2 ^ n) → l.foldl Nat.xor a < 2 ^ n := by
  intro l
  induction l with
  | nil => intro a ha _; simpa using ha
  | cons x t ih =>
      intro a ha hl
      rw [List.foldl_cons]
      exact ih (a ^^^ x) (Nat.xor_lt_two_pow ha (hl x (by simp))) fun b hb => hl b (by simp [hb])

theorem hdrBytes_bytes (cyl head sec_id : Nat) (hcyl : cyl < 512) (hhead : head < 8)
    (hsid : sec_id < 256) : ∀ b ∈ hdrBytes cyl head sec_id, b < 256 := by
  have hlow : cyl &&& 0x3f < 256 := by
    have := Nat.and_le_right (n := cyl) (m := 0x3f)
    omega
  have hside : (head <<< 5) ||| (cyl >>> 6) < 256 := by
    have h1 : head <<< 5 < 256 := by
      rw [Nat.shiftLeft_eq]
      omega
    have h2 : cyl >>> 6 < 256 := by
      rw [Nat.shiftRight_eq_div_pow]
      omega
    exact Nat.or_lt_two_pow (n := 8) h1 h2
  have hsum : ([cyl &&& 0x3f, sec_id, (head <<< 5) ||| (cyl >>> 6), 0x22].foldl Nat.xor 0) < 256 := by
    refine foldl_xor_lt 8 _ 0 (by norm_num) ?_
    intro b hb
    simp at hb
    rcases hb with h | h | h | h <;> omega
  intro b hb
  simp only [hdrBytes, List.mem_append, List.mem_singleton] at hb
  rcases hb with hb | hb
  · simp at hb
    rcases hb with h | h | h | h <;> omega
  · subst hb
    exact hsum

theorem hdrBytes_xor (cyl head sec_id : Nat) :
    (hdrBytes cyl head sec_id).foldl Nat.xor 0 = 0 := by
  rw [hdrBytes]
  rw [List.foldl_append]
  exact Nat.xor_self _

theorem sectorBlock_length (P : MacPrims)
    (hlen : ∀ l, (P.encode_mac_gcr l).length = l.length)
    (hseclen : ∀ d : List Nat, d.length = 524 → (P.encode_mac_sector d).length = 703)
    (cyl head sec_id : Nat) (data : List Nat) (hd : data.length = 524) :
    (sectorBlock P cyl head sec_id data).length = 764 := by
  rw [sectorBlock_decomp]
  simp [hlen, hseclen data hd, hdrBytes_length, blockPre, midBytes,
    self_sync_bytes, sector_sync_bytes, data_sync_bytes]

/-- Extract the middle piece of a three-part concatenation. -/
theorem slice_at {α : Type} (A B C : List α) (n k : Nat) (hA : A.length = n)
    (hB : B.length = k) : ((A ++ B ++ C).drop n).take k = B := by
  rw [List.append_assoc, ← hA, List.drop_left, ← hB, List.take_left]

/-- Decoding one well-formed encoder-emitted block stores exactly its
sector into the (empty) target slot. -/
theorem processMatch_block (P : MacPrims)
    (hdec : ∀ l : List Nat, (∀ b ∈ l, b < 256) → P.decode_mac_gcr (P.encode_mac_gcr l) = l)
    (hlen : ∀ l, (P.encode_mac_gcr l).length = l.length)
    (hbytes : ∀ l : List Nat, (∀ b ∈ l, b < 256) → ∀ b ∈ P.encode_mac_gcr l, b < 256)
    (hsecdec : ∀ d : List Nat, (∀ b ∈ d, b < 256) → d.length = 524 →
      P.decode_mac_sector (P.encode_mac_sector d) = (d, 0))
    (hseclen : ∀ d : List Nat, d.length = 524 → (P.encode_mac_sector d).length = 703)
    (hsecbytes : ∀ d : List Nat, (∀ b ∈ d, b < 256) → d.length = 524 →
      ∀ b ∈ P.encode_mac_sector d, b < 256)
    (cyl head : Nat) (hcyl : cyl < 512) (hhead : head < 8)
    (track pre suf : List Nat) (sec_id : Nat) (data : List Nat)
    (hdlen : data.length = 524) (hdbytes : ∀ b ∈ data, b < 256) (hsid : sec_id < 256)
    (htrack : track = pre ++ sectorBlock P cyl head sec_id data ++ suf)
    (hwin : searchAll (bytesBits (((sectorBlock P cyl head sec_id data).drop 44).take 100))
      data_sync = [80])
    (s : List (Option (List Nat))) (hslot : s.get? sec_id = some none) :
    processMatch P (bytesBits track) s (8 * (pre.length + 36)) = .ok (s.set sec_id (some data)) := by
  have hHb := hdrBytes_bytes cyl head sec_id hcyl hhead hsid
  have hencH_len : (P.encode_mac_gcr (hdrBytes cyl head sec_id)).length = 5 := by
    rw [hlen, hdrBytes_length]
  have hencH_bytes := hbytes _ hHb
  have hencD_len : (P.encode_mac_gcr (P.encode_mac_sector data)).length = 703 := by
    rw [hlen, hseclen data hdlen]
  have hencD_bytes := hbytes _ (hsecbytes data hdbytes hdlen)
  have hBlen : (sectorBlock P cyl head sec_id data).length = 764 :=
    sectorBlock_length P hlen hseclen cyl head sec_id data hdlen
  have hpre39 : (pre ++ blockPre).length = pre.length + 39 := by
    rw [List.length_append, show blockPre.length = 39 from by decide]
  have htrack1 : track = (pre ++ blockPre) ++ P.encode_mac_gcr (hdrBytes cyl head sec_id) ++
      (midBytes ++ P.encode_mac_gcr [sec_id] ++ P.encode_mac_gcr (P.encode_mac_sector data) ++
        ([0xde, 0xaa, 0xff] ++ suf)) := by
    rw [htrack, sectorBlock_decomp]
    simp [List.append_assoc]
  have htrack2 : track = (pre ++ blockPre ++ P.encode_mac_gcr (hdrBytes cyl head sec_id) ++
      midBytes ++ P.encode_mac_gcr [sec_id]) ++
      P.encode_mac_gcr (P.encode_mac_sector data) ++ ([0xde, 0xaa, 0xff] ++ suf) := by
    rw [htrack, sectorBlock_decomp]
    simp [List.append_assoc]
  have htrackW : track = pre ++ (sectorBlock P cyl head sec_id data ++ suf) := by
    rw [htrack, List.append_assoc]
  have h1 : rawHdrAt (bytesBits track) (8 * (pre.length + 36)) =
      P.encode_mac_gcr (hdrBytes cyl head sec_id) := by
    rw [rawHdrAt, show 8 * (pre.length + 36) + 3 * 8 = 8 * (pre.length + 39) from by ring,
      bytesBits_drop, show (5 * 8 : Nat) = 8 * 5 from by norm_num, bytesBits_take]
    rw [htrack1, slice_at _ _ _ _ _ hpre39 hencH_len]
    exact bitsToBytes_bytesBits _ hencH_bytes
  have h3 : datOffsAt (bytesBits track) (8 * (pre.length + 36)) = [80] := by
    rw [datOffsAt, show 8 * (pre.length + 36) + 8 * 8 = 8 * (pre.length + 44) from by ring,
      bytesBits_drop, show (100 * 8 : Nat) = 8 * 100 from by norm_num, bytesBits_take]
    rw [htrackW, List.drop_append,
      List.drop_append_of_le_length (by rw [hBlen]; norm_num),
      List.take_append_of_le_length (by rw [List.length_drop, hBlen]; norm_num)]
    exact hwin
  have h4 : dataDecAt P (bytesBits track) (8 * (pre.length + 36)) = (data, 0) := by
    rw [dataDecAt, h3,
      show 8 * (pre.length + 36) + 8 * 8 + List.headD [80] 0 + 4 * 8 = 8 * (pre.length + 58)
        from by simp [List.headD]; ring,
      bytesBits_drop, show (703 * 8 : Nat) = 8 * 703 from by norm_num, bytesBits_take]
    have hlenA : (pre ++ blockPre ++ P.encode_mac_gcr (hdrBytes cyl head sec_id) ++
        midBytes ++ P.encode_mac_gcr [sec_id]).length = pre.length + 58 := by
      simp [List.length_append, hencH_len, show blockPre.length = 39 from by decide,
        show midBytes.length = 13 from by decide, hlen]
    rw [htrack2, slice_at _ _ _ _ _ hlenA hencD_len,
      bitsToBytes_bytesBits _ hencD_bytes, hdec _ (hsecbytes data hdbytes hdlen),
      hsecdec data hdbytes hdlen]
  simp only [processMatch, h1, h3, h4]
  rw [hdec _ hHb]
  have hc1 : ¬((P.encode_mac_gcr (hdrBytes cyl head sec_id)).length ≠ 5) := by
    simp [hencH_len]
  rw [if_neg hc1]
  have hc2 : ¬(List.foldl Nat.xor 0 (hdrBytes cyl head sec_id) ≠ 0) := by
    simp [show (hdrBytes cyl head sec_id).foldl Nat.xor 0 = 0 from hdrBytes_xor cyl head sec_id]
  rw [if_neg hc2]
  simp only [hdrBytes, List.cons_append, List.nil_append]
  norm_num [macAdd]
  rw [List.get?_eq_getElem?] at hslot
  rw [hslot]

theorem filter_isNone_pos {s : List (Option (List Nat))} {j : Nat}
    (h : s.get? j = some none) : (s.filter Option.isNone).length ≠ 0 := by
  have hmem : (none : Option (List Nat)) ∈ s := List.get?_mem h
  have : (none : Option (List Nat)) ∈ s.filter Option.isNone :=
    List.mem_filter.mpr ⟨hmem, rfl⟩
  intro hzero
  rw [List.length_eq_zero] at hzero
  rw [hzero] at this
  simp at this

theorem foldl_set_length : ∀ (qs : List (Nat × List Nat)) (s : List (Option (List Nat))),
    (qs.foldl (fun acc q => acc.set q.1 (some q.2)) s).length = s.length := by
  intro qs
  induction qs with
  | nil => intro s; rfl
  | cons q rest ih =>
      intro s
      rw [List.foldl_cons, ih, List.length_set]

theorem foldl_set_not_mem : ∀ (qs : List (Nat × List Nat)) (s : List (Option (List Nat)))
    (j : Nat), j ∉ qs.map Prod.fst →
    (qs.foldl (fun acc q => acc.set q.1 (some q.2)) s).get? j = s.get? j := by
  intro qs
  induction qs with
  | nil => intro s j _; rfl
  | cons q rest ih =>
      intro s j hj
      simp only [List.map_cons, List.mem_cons] at hj
      push_neg at hj
      rw [List.foldl_cons, ih _ j hj.2, List.get?_set_ne _ _ (fun h => hj.1 h.symm)]

theorem foldl_set_mem : ∀ (qs : List (Nat × List Nat)) (s : List (Option (List Nat)))
    (j : Nat) (d : List Nat), (qs.map Prod.fst).Nodup → (j, d) ∈ qs → j < s.length →
    (qs.foldl (fun acc q => acc.set q.1 (some q.2)) s).get? j = some (some d) := by
  intro qs
  induction qs with
  | nil => intro s j d _ hmem _; simp at hmem
  | cons q rest ih =>
      intro s j d hnd hmem hj
      simp only [List.map_cons, List.nodup_cons] at hnd
      rw [List.foldl_cons]
      rcases List.mem_cons.mp hmem with heq | hmem2
      · obtain ⟨hj1, hd1⟩ : q.1 = j ∧ q.2 = d := by
          rw [← heq]
          exact ⟨rfl, rfl⟩
        have hnotin : j ∉ rest.map Prod.fst := by
          rw [← hj1]; exact hnd.1
        rw [foldl_set_not_mem rest _ j hnotin, hj1, hd1, List.get?_set_eq_of_lt _ hj]
      · exact ih _ j d hnd.2 hmem2 (by rw [List.length_set]; exact hj)

/-- Decoding the ascending encoder-emitted sync offsets of a run of
well-formed blocks fills exactly the corresponding (previously empty,
pairwise distinct) slots with the block contents. -/
theorem decode_blocks (P : MacPrims)
    (hdec : ∀ l : List Nat, (∀ b ∈ l, b < 256) → P.decode_mac_gcr (P.encode_mac_gcr l) = l)
    (hlen : ∀ l, (P.encode_mac_gcr l).length = l.length)
    (hbytes : ∀ l : List Nat, (∀ b ∈ l, b < 256) → ∀ b ∈ P.encode_mac_gcr l, b < 256)
    (hsecdec : ∀ d : List Nat, (∀ b ∈ d, b < 256) → d.length = 524 →
      P.decode_mac_sector (P.encode_mac_sector d) = (d, 0))
    (hseclen : ∀ d : List Nat, d.length = 524 → (P.encode_mac_sector d).length = 703)
    (hsecbytes : ∀ d : List Nat, (∀ b ∈ d, b < 256) → d.length = 524 →
      ∀ b ∈ P.encode_mac_sector d, b < 256)
    (cyl head : Nat) (hcyl : cyl < 512) (hhead : head < 8) (track : List Nat) :
    ∀ (qs : List (Nat × List Nat)) (pre suf : List Nat) (s : List (Option (List Nat))),
    track = pre ++ (qs.map (fun q => sectorBlock P cyl head q.1 q.2)).flatten ++ suf →
    (∀ q ∈ qs, q.1 < 256 ∧ q.2.length = 524 ∧ (∀ b ∈ q.2, b < 256) ∧
      s.get? q.1 = some none ∧
      searchAll (bytesBits (((sectorBlock P cyl head q.1 q.2).drop 44).take 100)) data_sync
        = [80]) →
    (qs.map Prod.fst).Nodup →
    decodeLoop P (bytesBits track)
      ((List.range qs.length).map (fun i => 8 * (pre.length + 764 * i + 36))) s
      = .ok (qs.foldl (fun acc q => acc.set q.1 (some q.2)) s) := by
  intro qs
  induction qs with
  | nil => intro pre suf s _ _ _; rfl
  | cons q rest ih =>
      intro pre suf s htrack hq hnd
      obtain ⟨hq1, hq2len, hq2bytes, hslot, hwin⟩ := hq q (by simp)
      have hBlen : (sectorBlock P cyl head q.1 q.2).length = 764 :=
        sectorBlock_length P hlen hseclen cyl head q.1 q.2 hq2len
      simp only [List.map_cons, List.flatten_cons] at htrack
      have htrack1 : track = pre ++ sectorBlock P cyl head q.1 q.2 ++
          ((rest.map (fun q => sectorBlock P cyl head q.1 q.2)).flatten ++ suf) := by
        rw [htrack]
        simp [List.append_assoc]
      rw [List.length_cons, List.range_succ_eq_map, List.map_cons, List.map_map]
      rw [decodeLoop_cons, if_neg (filter_isNone_pos hslot)]
      have hmatch := processMatch_block P hdec hlen hbytes hsecdec hseclen hsecbytes
        cyl head hcyl hhead track pre
        ((rest.map (fun q => sectorBlock P cyl head q.1 q.2)).flatten ++ suf)
        q.1 q.2 hq2len hq2bytes hq1 htrack1 hwin s hslot
      rw [show 8 * (pre.length + 764 * 0 + 36) = 8 * (pre.length + 36) from by ring, hmatch]
      show decodeLoop P (bytesBits track)
          (List.map ((fun i => 8 * (pre.length + 764 * i + 36)) ∘ Nat.succ) (List.range rest.length))
          (s.set q.1 (some q.2)) = _
      have hmapf : (fun i => 8 * (pre.length + 764 * i + 36)) ∘ Nat.succ
          = fun i => 8 * ((pre ++ sectorBlock P cyl head q.1 q.2).length + 764 * i + 36) := by
        funext i
        simp [Function.comp, List.length_append, hBlen, Nat.succ_eq_add_one]
        ring
      rw [hmapf]
      rw [ih (pre ++ sectorBlock P cyl head q.1 q.2)
        suf (s.set q.1 (some q.2))
        (by rw [htrack1]; simp [List.append_assoc])
        ?hcond ?hnodup]
      case hcond =>
        intro q2 hq2
        obtain ⟨ha, hb, hc, hd, he⟩ := hq q2 (by simp [hq2])
        refine ⟨ha, hb, hc, ?_, he⟩
        have hne : q.1 ≠ q2.1 := by
          simp only [List.map_cons, List.nodup_cons] at hnd
          intro hcontra
          exact hnd.1 (hcontra ▸ List.mem_map.mpr ⟨q2, hq2, rfl⟩)
        rw [List.get?_set_ne _ _ hne]
        exact hd
      case hnodup =>
        simp only [List.map_cons, List.nodup_cons] at hnd
        exact hnd.2
      rfl

theorem decode_raw_eq (P : MacPrims) (t : MacGCR) (bits : List Bool) :
    MacGCR.decode_raw P t bits =
      match decodeLoop P bits (searchAll bits sector_sync) t.sector with
      | .error e => .error e
      | .ok s => .ok { t with sector := s } := rfl

theorem get?_replicate_lt {α : Type} (a : α) :
    ∀ (n i : Nat), i < n → (List.replicate n a).get? i = some a := by
  intro n
  induction n with
  | zero => intro i hi; omega
  | succ m ih =>
      intro i hi
      cases i with
      | zero => rfl
      | succ k => exact ih k (by omega)

set_option maxRecDepth 400000 in
/-- C1, amended: the round trip holds when, additionally, the primitives
are length-preserving and byte-valued per their documented contracts, the
sector-sync pattern occurs in the encoded track exactly at the encoder's
emitted sync positions, and the data-sync pattern occurs exactly once in
each header's 100-byte search window (at its emitted position 80 bits in).
Tables built by `mk_track` always satisfy `hperm` (`secMapF_perm`). -/
theorem C1_roundtrip_amended (P : MacPrims)
    (hdec : ∀ l : List Nat, (∀ b ∈ l, b < 256) → P.decode_mac_gcr (P.encode_mac_gcr l) = l)
    (hlen : ∀ l, (P.encode_mac_gcr l).length = l.length)
    (hbytes : ∀ l : List Nat, (∀ b ∈ l, b < 256) → ∀ b ∈ P.encode_mac_gcr l, b < 256)
    (hsecdec : ∀ d : List Nat, (∀ b ∈ d, b < 256) → d.length = 524 →
      P.decode_mac_sector (P.encode_mac_sector d) = (d, 0))
    (hseclen : ∀ d : List Nat, d.length = 524 → (P.encode_mac_sector d).length = 703)
    (hsecbytes : ∀ d : List Nat, (∀ b ∈ d, b < 256) → d.length = 524 →
      ∀ b ∈ P.encode_mac_sector d, b < 256)
    (t : MacGCR) (tb : List Nat) (c : ℚ)
    (hfin : t.config.finalised = true)
    (hclock : t.clock = some c)
    (hnsec : t.sector.length = t.nsec)
    (hn256 : t.nsec ≤ 256)
    (hcyl : t.cyl < 512) (hhead : t.head < 8)
    (hperm : t.sec_map.Perm (List.range t.nsec))
    (hpop : ∀ s ∈ t.sector, ∃ d, s = some d ∧ d.length = 524 ∧ ∀ b ∈ d, b < 256)
    (htrack : MacGCR.raw_track P t = .ok tb)
    (hsync : searchAll (bytesBits tb) sector_sync
      = (List.range t.nsec).map (fun i => 8 * (184 + 764 * i + 36)))
    (hwin : ∀ id ∈ t.sec_map,
      searchAll (bytesBits (((sectorBlock P t.cyl t.head id (t.dataOf id)).drop 44).take 100))
        data_sync = [80]) :
    MacGCR.decode_raw P { t with sector := List.replicate t.nsec none } (bytesBits tb)
      = .ok t := by
  have hmaplen : t.sec_map.length = t.nsec := by
    rw [hperm.length_eq, List.length_range]
  have hmem_lt : ∀ id ∈ t.sec_map, id < t.nsec := fun id hid =>
    List.mem_range.mp (hperm.mem_iff.mp hid)
  have hnd : t.sec_map.Nodup := hperm.nodup_iff.mpr (List.nodup_range _)
  have hdata : ∀ id, id < t.nsec → t.sector.get? id = some (some (t.dataOf id)) ∧
      (t.dataOf id).length = 524 ∧ ∀ b ∈ t.dataOf id, b < 256 := by
    intro id hid
    have hlt : id < t.sector.length := by rw [hnsec]; exact hid
    obtain ⟨sd, hsd⟩ : ∃ sd, t.sector.get? id = some sd := by
      refine ⟨t.sector[id], ?_⟩
      rw [List.get?_eq_getElem?]
      exact List.getElem?_eq_some_iff.mpr ⟨hlt, rfl⟩
    obtain ⟨d, hd1, hd2, hd3⟩ := hpop sd (List.get?_mem hsd)
    subst hd1
    have hdf : t.dataOf id = d := by
      simp only [MacGCR.dataOf, List.getD, hsd, Option.getD]
    rw [hdf]
    exact ⟨hsd, hd2, hd3⟩
  have hmem_lt2 : ∀ id ∈ t.sec_map, id < t.sector.length := fun id hid => by
    rw [hnsec]; exact hmem_lt id hid
  have htr := raw_track_ok P t c hclock hmem_lt2
  have htb := Except.ok.inj (htrack.symm.trans htr)
  have hqs_blocks : (t.sec_map.map (fun id => (id, t.dataOf id))).map
      (fun q => sectorBlock P t.cyl t.head q.1 q.2)
      = t.sec_map.map (fun id => sectorBlock P t.cyl t.head id (t.dataOf id)) := by
    rw [List.map_map]
    rfl
  have hqs_fst : (t.sec_map.map (fun id => (id, t.dataOf id))).map Prod.fst = t.sec_map := by
    rw [List.map_map]
    exact List.map_id t.sec_map
  have hqs_len : (t.sec_map.map (fun id => (id, t.dataOf id))).length = t.nsec := by
    rw [List.length_map, hmaplen]
  have htrackEq : tb = trackGap ++
      ((t.sec_map.map (fun id => (id, t.dataOf id))).map
        (fun q => sectorBlock P t.cyl t.head q.1 q.2)).flatten ++
      ([0xff, 0xff, 0xff, 0xff] ++ List.replicate (tlenBits c / 8 -
        (((trackGap ++ (t.sec_map.map
          (fun id => sectorBlock P t.cyl t.head id (t.dataOf id))).flatten).length + 4))) 0x96) := by
    rw [htb, hqs_blocks]
    simp [List.append_assoc]
  have hcond : ∀ q ∈ t.sec_map.map (fun id => (id, t.dataOf id)),
      q.1 < 256 ∧ q.2.length = 524 ∧ (∀ b ∈ q.2, b < 256) ∧
      (List.replicate t.nsec (none : Option (List Nat))).get? q.1 = some none ∧
      searchAll (bytesBits (((sectorBlock P t.cyl t.head q.1 q.2).drop 44).take 100)) data_sync
        = [80] := by
    intro q hq
    obtain ⟨id, hid, rfl⟩ := List.mem_map.mp hq
    have hlt := hmem_lt id hid
    obtain ⟨hg, hl5, hb5⟩ := hdata id hlt
    exact ⟨by omega, hl5, hb5, get?_replicate_lt none t.nsec id hlt, hwin id hid⟩
  have hnd2 : ((t.sec_map.map (fun id => (id, t.dataOf id))).map Prod.fst).Nodup := by
    rw [hqs_fst]; exact hnd
  have hfold : (t.sec_map.map (fun id => (id, t.dataOf id))).foldl
      (fun acc q => acc.set q.1 (some q.2)) (List.replicate t.nsec none) = t.sector := by
    apply List.ext_get?
    intro i
    by_cases hi : i < t.nsec
    · have hmem : (i, t.dataOf i) ∈ t.sec_map.map (fun id => (id, t.dataOf id)) :=
        List.mem_map.mpr ⟨i, hperm.mem_iff.mpr (List.mem_range.mpr hi), rfl⟩
      rw [foldl_set_mem _ _ i _ hnd2 hmem (by rw [List.length_replicate]; exact hi)]
      exact ((hdata i hi).1).symm
    · have h1 : ((t.sec_map.map (fun id => (id, t.dataOf id))).foldl
          (fun acc q => acc.set q.1 (some q.2)) (List.replicate t.nsec none)).get? i = none := by
        apply List.get?_eq_none.mpr
        rw [foldl_set_length, List.length_replicate]
        omega
      have h2 : t.sector.get? i = none := by
        apply List.get?_eq_none.mpr
        rw [hnsec]
        omega
      rw [h1, h2]
  rw [decode_raw_eq,
    show ({ t with sector := List.replicate t.nsec none } : MacGCR).sector
      = List.replicate t.nsec none from rfl,
    hsync,
    show (List.range t.nsec).map (fun i => 8 * (184 + 764 * i + 36))
      = (List.range (t.sec_map.map (fun id => (id, t.dataOf id))).length).map
          (fun i => 8 * (trackGap.length + 764 * i + 36)) from by
      rw [hqs_len]
      simp only [show trackGap.length = 184 from by decide],
    decode_blocks P hdec hlen hbytes hsecdec hseclen hsecbytes t.cyl t.head hcyl hhead tb
      (t.sec_map.map (fun id => (id, t.dataOf id))) trackGap _ (List.replicate t.nsec none)
      htrackEq hcond hnd2,
    hfold]

theorem map_mod256_id : ∀ l : List Nat, (∀ b ∈ l, b < 256) → l.map (· % 256) = l := by
  intro l
  induction l with
  | nil => intro; rfl
  | cons x t ih =>
      intro h
      rw [List.map_cons, Nat.mod_eq_of_lt (h x (by simp)), ih (fun b hb => h b (by simp [hb]))]

theorem wPrims_gcr_inv : ∀ l : List Nat, (∀ b ∈ l, b < 256) →
    wPrims.decode_mac_gcr (wPrims.encode_mac_gcr l) = l := fun l hl => map_mod256_id l hl

theorem wPrims_gcr_len : ∀ l, (wPrims.encode_mac_gcr l).length = l.length := fun l =>
  List.length_map l _

theorem wPrims_gcr_bytes : ∀ l : List Nat, (∀ b ∈ l, b < 256) →
    ∀ b ∈ wPrims.encode_mac_gcr l, b < 256 := by
  intro l _ b hb
  obtain ⟨x, _, rfl⟩ := List.mem_map.mp hb
  exact Nat.mod_lt x (by norm_num)

theorem wPrims_sec_len : ∀ d : List Nat, d.length = 524 →
    (wPrims.encode_mac_sector d).length = 703 := by
  intro d hd
  show ((d ++ List.replicate 179 0).map (· % 256)).length = 703
  rw [List.length_map, List.length_append, List.length_replicate, hd]

theorem wPrims_sec_bytes : ∀ d : List Nat, (∀ b ∈ d, b < 256) → d.length = 524 →
    ∀ b ∈ wPrims.encode_mac_sector d, b < 256 := by
  intro d _ _ b hb
  obtain ⟨x, _, rfl⟩ := List.mem_map.mp hb
  exact Nat.mod_lt x (by norm_num)

theorem wPrims_sec_inv : ∀ d : List Nat, (∀ b ∈ d, b < 256) → d.length = 524 →
    wPrims.decode_mac_sector (wPrims.encode_mac_sector d) = (d, 0) := by
  intro d hb hd
  show (((d ++ List.replicate 179 0).map (· % 256)).take 524, 0) = (d, 0)
  rw [List.map_append, map_mod256_id d hb, ← hd, List.take_append_of_le_length (by omega),
    List.take_of_length_le (by omega)]

/-- The `wPrims` encoding of the one-sector zero track (no padding). -/
def trackBytesEx1w : List Nat :=
  trackGap ++ sectorBlock wPrims 0 0 0 (List.replicate 524 0) ++ [0xff, 0xff, 0xff, 0xff]

set_option maxRecDepth 400000 in
theorem raw_track_tEx1w : MacGCR.raw_track wPrims tEx1 = .ok trackBytesEx1w := by
  have hsm : tEx1.sec_map = [0] := by decide
  have hdf : tEx1.dataOf 0 = List.replicate 524 0 := by decide
  have hb : (trackGap ++ (sectorBlock wPrims 0 0 0 (List.replicate 524 0) ++ [])).length = 948 := by
    decide
  rw [raw_track_ok wPrims tEx1 (1 / 38080) rfl (by rw [hsm]; decide)]
  rw [hsm]
  simp only [List.map_cons, List.map_nil, List.flatten_cons, List.flatten_nil, hdf,
    show tEx1.cyl = 0 from rfl, show tEx1.head = 0 from rfl]
  rw [tlenBits_cfg1, hb]
  norm_num [trackBytesEx1w, List.append_assoc]

set_option maxRecDepth 1000000 in
theorem C1_roundtrip_amended_witness :
    (∀ l : List Nat, (∀ b ∈ l, b < 256) →
      wPrims.decode_mac_gcr (wPrims.encode_mac_gcr l) = l) ∧
    (∀ l, (wPrims.encode_mac_gcr l).length = l.length) ∧
    (∀ l : List Nat, (∀ b ∈ l, b < 256) → ∀ b ∈ wPrims.encode_mac_gcr l, b < 256) ∧
    (∀ d : List Nat, (∀ b ∈ d, b < 256) → d.length = 524 →
      wPrims.decode_mac_sector (wPrims.encode_mac_sector d) = (d, 0)) ∧
    (∀ d : List Nat, d.length = 524 → (wPrims.encode_mac_sector d).length = 703) ∧
    (∀ d : List Nat, (∀ b ∈ d, b < 256) → d.length = 524 →
      ∀ b ∈ wPrims.encode_mac_sector d, b < 256) ∧
    tEx1.config.finalised = true ∧
    tEx1.clock = some (1 / 38080) ∧
    tEx1.sector.length = tEx1.nsec ∧
    tEx1.nsec ≤ 256 ∧ tEx1.cyl < 512 ∧ tEx1.head < 8 ∧
    tEx1.sec_map.Perm (List.range tEx1.nsec) ∧
    (∀ s ∈ tEx1.sector, ∃ d, s = some d ∧ d.length = 524 ∧ ∀ b ∈ d, b < 256) ∧
    MacGCR.raw_track wPrims tEx1 = .ok trackBytesEx1w ∧
    searchAll (bytesBits trackBytesEx1w) sector_sync
      = (List.range tEx1.nsec).map (fun i => 8 * (184 + 764 * i + 36)) ∧
    (∀ id ∈ tEx1.sec_map,
      searchAll (bytesBits (((sectorBlock wPrims tEx1.cyl tEx1.head id
        (tEx1.dataOf id)).drop 44).take 100)) data_sync = [80]) ∧
    MacGCR.decode_raw wPrims { tEx1 with sector := List.replicate tEx1.nsec none }
      (bytesBits trackBytesEx1w) = .ok tEx1 := by
  have hpop : ∀ s ∈ tEx1.sector, ∃ d, s = some d ∧ d.length = 524 ∧ ∀ b ∈ d, b < 256 := by
    intro s hs
    simp [tEx1, freshEx1] at hs
    subst hs
    exact ⟨List.replicate 524 0, rfl, by decide, by decide⟩
  have hsync : searchAll (bytesBits trackBytesEx1w) sector_sync
      = (List.range tEx1.nsec).map (fun i => 8 * (184 + 764 * i + 36)) := by
    rw [searchAll_eq_searchB8 _ _ (by decide) (by decide)]
    decide
  have hwin : ∀ id ∈ tEx1.sec_map,
      searchAll (bytesBits (((sectorBlock wPrims tEx1.cyl tEx1.head id
        (tEx1.dataOf id)).drop 44).take 100)) data_sync = [80] := by
    intro id hid
    rw [show tEx1.sec_map = [0] from by decide] at hid
    simp at hid
    subst hid
    rw [searchAll_eq_searchB8 _ _ (by decide) (by decide)]
    decide
  refine ⟨wPrims_gcr_inv, wPrims_gcr_len, wPrims_gcr_bytes, wPrims_sec_inv, wPrims_sec_len,
    wPrims_sec_bytes, rfl, rfl, rfl, by decide, by decide, by decide, by decide, hpop,
    raw_track_tEx1w, hsync, hwin, ?_⟩
  exact C1_roundtrip_amended wPrims wPrims_gcr_inv wPrims_gcr_len wPrims_gcr_bytes
    wPrims_sec_inv wPrims_sec_len wPrims_sec_bytes tEx1 trackBytesEx1w (1 / 38080)
    rfl rfl rfl (by decide) (by decide) (by decide) (by decide) hpop raw_track_tEx1w hsync hwin

/-! ## The interleave map is a permutation -/

theorem exists_free : ∀ m : List (Option Nat), (m.filterMap id).length < m.length →
    ∃ j, j < m.length ∧ m.getD j none = none := by
  intro m
  induction m with
  | nil => intro h; simp at h
  | cons o t ih =>
      intro h
      cases o with
      | none => exact ⟨0, by simp, rfl⟩
      | some v =>
          have h2 : (t.filterMap id).length < t.length := by
            simp only [List.filterMap_cons, id] at h
            simp at h
            omega
          obtain ⟨j, hj, hjf⟩ := ih h2
          exact ⟨j + 1, by simp; omega, by simpa using hjf⟩

theorem findFreePos_succ (m : List (Option Nat)) (pos f : Nat) :
    findFreePos m pos (f + 1) =
      match m.getD pos none with
      | none => pos
      | some _ => findFreePos m ((pos + 1) % m.length) f := rfl

theorem findFreePos_spec : ∀ (f : Nat) (m : List (Option Nat)) (pos : Nat), pos < m.length →
    (∃ t, t < f ∧ m.getD ((pos + t) % m.length) none = none) →
    findFreePos m pos f < m.length ∧ m.getD (findFreePos m pos f) none = none := by
  intro f
  induction f with
  | zero => intro m pos _ ⟨t, ht, _⟩; omega
  | succ f ih =>
      intro m pos hpos hex
      cases hm : m.getD pos none with
      | none =>
          constructor
          · rw [findFreePos_succ, hm]
            exact hpos
          · rw [findFreePos_succ, hm]
            exact hm
      | some v =>
          obtain ⟨t, ht, hfree⟩ := hex
          have hlen0 : 0 < m.length := by omega
          cases t with
          | zero =>
              rw [Nat.add_zero, Nat.mod_eq_of_lt hpos] at hfree
              rw [hm] at hfree
              cases hfree
          | succ s =>
              have hnext := ih m ((pos + 1) % m.length) (Nat.mod_lt _ hlen0) ⟨s, by omega, by
                rw [Nat.mod_add_mod, show pos + 1 + s = pos + (s + 1) from by ring]
                exact hfree⟩
              constructor
              · rw [findFreePos_succ, hm]
                exact hnext.1
              · rw [findFreePos_succ, hm]
                exact hnext.2

theorem set_filterMap_perm : ∀ (m : List (Option Nat)) (p a : Nat), p < m.length →
    m.getD p none = none →
    ((m.set p (some a)).filterMap id).Perm (a :: m.filterMap id) := by
  intro m
  induction m with
  | nil => intro p a hp _; simp at hp
  | cons o t ih =>
      intro p a hp hfree
      cases p with
      | zero =>
          have : o = none := by simpa using hfree
          subst this
          simp [List.filterMap_cons]
      | succ q =>
          have hq : q < t.length := by simpa using hp
          have hqf : t.getD q none = none := by simpa using hfree
          cases o with
          | none =>
              simpa [List.filterMap_cons] using ih q a hq hqf
          | some b =>
              simp only [List.set_cons_succ, List.filterMap_cons, id]
              exact ((ih q a hq hqf).cons b).trans (List.Perm.swap a b _)

theorem placeLoop_spec (n k : Nat) : ∀ (c i pos : Nat) (m : List (Option Nat)),
    m.length = n → pos < n → (m.filterMap id).Perm (List.range i) → i + c = n →
    (placeLoop n k pos i c m).length = n ∧
    ((placeLoop n k pos i c m).filterMap id).Perm (List.range n) := by
  intro c
  induction c with
  | zero =>
      intro i pos m hlen _ hperm hic
      rw [placeLoop]
      exact ⟨hlen, by rw [show n = i from by omega]; exact hperm⟩
  | succ c ih =>
      intro i pos m hlen hpos hperm hic
      have hn0 : 0 < n := by omega
      have hflen : (m.filterMap id).length = i := by
        rw [hperm.length_eq, List.length_range]
      have hfree : ∃ j, j < m.length ∧ m.getD j none = none :=
        exists_free m (by rw [hflen, hlen]; omega)
      have hscan : ∃ t, t < n ∧ m.getD ((pos + t) % m.length) none = none := by
        obtain ⟨j, hj, hjf⟩ := hfree
        rw [hlen] at hj
        refine ⟨(n + j - pos) % n, Nat.mod_lt _ hn0, ?_⟩
        rw [hlen, Nat.add_mod_mod, show pos + (n + j - pos) = n + j from by omega,
          Nat.add_mod_left, Nat.mod_eq_of_lt hj]
        exact hjf
      have hffp := findFreePos_spec n m pos (by rw [hlen]; exact hpos) hscan
      rw [placeLoop]
      refine ih (i + 1) ((findFreePos m pos n + k) % n) (m.set (findFreePos m pos n) (some i))
        (by rw [List.length_set, hlen]) (Nat.mod_lt _ hn0) ?_ (by omega)
      refine (set_filterMap_perm m _ i hffp.1 hffp.2).trans ?_
      refine (hperm.cons i).trans ?_
      rw [List.range_succ]
      exact (List.perm_append_singleton i (List.range i)).symm

theorem all_some_of_filterMap_length : ∀ m : List (Option Nat),
    (m.filterMap id).length = m.length → ∀ o ∈ m, o.isSome := by
  intro m
  induction m with
  | nil => intro _ o ho; simp at ho
  | cons x t ih =>
      intro h o ho
      cases x with
      | none =>
          exfalso
          simp only [List.filterMap_cons, id] at h
          have := List.length_filterMap_le id t
          simp at h
          omega
      | some v =>
          rcases List.mem_cons.mp ho with rfl | hmem
          · rfl
          · refine ih ?_ o hmem
            simp only [List.filterMap_cons, id] at h
            simpa using h

theorem map_getD_eq_filterMap : ∀ m : List (Option Nat), (∀ o ∈ m, o.isSome) →
    m.map (fun o => o.getD 0) = m.filterMap id := by
  intro m
  induction m with
  | nil => intro; rfl
  | cons x t ih =>
      intro h
      cases x with
      | none =>
          have := h none (by simp)
          simp at this
      | some v =>
          rw [List.map_cons,
            show List.filterMap id (some v :: t) = v :: List.filterMap id t from by simp,
            ih (fun o ho => h o (by simp [ho]))]
          rfl

theorem secMapF_perm (n k : Nat) : (secMapF n k).Perm (List.range n) := by
  cases n with
  | zero => rw [show secMapF 0 k = [] from rfl, List.range_zero]
  | succ m =>
      have hspec := placeLoop_spec (m + 1) k (m + 1) 0 0 (List.replicate (m + 1) none)
        (List.length_replicate _ _) (by omega) (by simp [List.filterMap_replicate]) (by omega)
      have hlen : (buildSecMap (m + 1) k).length = m + 1 := hspec.1
      have hperm : ((buildSecMap (m + 1) k).filterMap id).Perm (List.range (m + 1)) := hspec.2
      have hfl : ((buildSecMap (m + 1) k).filterMap id).length = (buildSecMap (m + 1) k).length := by
        rw [hperm.length_eq, List.length_range, hlen]
      rw [secMapF, map_getD_eq_filterMap _ (all_some_of_filterMap_length _ hfl)]
      exact hperm

/-- C5: for every positive sector count and stride, the interleave map is
a permutation of the logical ids 0..n-1 (a bijection from physical
positions onto logical ids); the map is computed by `secMapF`, a function
of the sector count and stride alone, and it is exactly the `sec_map`
every constructed table carries; for 12 sectors at stride 2 it is the
expected concrete sequence. -/
theorem C5_interleave_bijection :
    (∀ n k : Nat, 0 < n → 0 < k → (secMapF n k).Perm (List.range n)) ∧
    (∀ (cyl head : Nat) (cfg : MacGCRTrackFormat) (t : MacGCR),
      MacGCR.init cyl head cfg = .ok t → t.sec_map = secMapF t.nsec cfg.interleave) ∧
    secMapF 12 2 = [0, 6, 1, 7, 2, 8, 3, 9, 4, 10, 5, 11] := by
  refine ⟨fun n k _ _ => secMapF_perm n k, ?_, by decide⟩
  intro cyl head cfg t h
  rw [MacGCR.init] at h
  cases hs : cfg.secs with
  | none => rw [hs] at h; cases h
  | some n =>
      rw [hs] at h
      have := Except.ok.inj h
      rw [← this]

/-- Witness for C5 at the concrete configuration of the claim. -/
theorem C5_interleave_bijection_witness :
    0 < 12 ∧ 0 < 2 ∧ (secMapF 12 2).Perm (List.range 12) :=
  ⟨by decide, by decide, C5_interleave_bijection.1 12 2 (by decide) (by decide)⟩

theorem list_len5 {α : Type} (l : List α) (h : l.length = 5) :
    ∃ a b c d e, l = [a, b, c, d, e] := by
  match l, h with
  | [a, b, c, d, e], _ => exact ⟨a, b, c, d, e, rfl⟩

/-- C7: a sync match whose decoded header bytes have nonzero XOR, or whose
data block decodes with nonzero checksum residual, never stores a sector:
the match is abandoned with the table unchanged and the loop resumes at
the next sync occurrence.  (The length hypothesis is the documented
length-preservation contract of the external GCR byte decoder.) -/
theorem C7_bad_checksum_never_stores (P : MacPrims) (bits : List Bool)
    (s : List (Option (List Nat))) (offs0 : Nat) (rest : List Nat)
    (hlen : ∀ l, (P.decode_mac_gcr l).length = l.length)
    (h : (hdrAt P bits offs0).foldl Nat.xor 0 ≠ 0 ∨ (dataDecAt P bits offs0).2 ≠ 0) :
    processMatch P bits s offs0 = .ok s ∧
    decodeLoop P bits (offs0 :: rest) s = decodeLoop P bits rest s := by
  have hpm : processMatch P bits s offs0 = .ok s := by
    rw [processMatch]
    by_cases h5 : (rawHdrAt bits offs0).length ≠ 5
    · rw [if_pos h5]
    · rw [if_neg h5]
      push_neg at h5
      by_cases hx : (P.decode_mac_gcr (rawHdrAt bits offs0)).foldl Nat.xor 0 ≠ 0
      · rw [if_pos hx]
      · rw [if_neg hx]
        push_neg at hx
        have hcs : (dataDecAt P bits offs0).2 ≠ 0 := by
          rcases h with h | h
          · exact absurd hx h
          · exact h
        have h5d : (P.decode_mac_gcr (rawHdrAt bits offs0)).length = 5 := by
          rw [hlen]; exact h5
        obtain ⟨a, b, c, d, e, hhdr⟩ := list_len5 _ h5d
        simp only [hhdr]
        by_cases hw : (datOffsAt bits offs0).length ≠ 1
        · rw [if_pos hw]
        · rw [if_neg hw, if_pos hcs]
  refine ⟨hpm, ?_⟩
  rw [decodeLoop_cons]
  by_cases hmiss : (s.filter Option.isNone).length = 0
  · rw [if_pos hmiss]
    cases rest with
    | nil => rfl
    | cons r rs => rw [decodeLoop_cons, if_pos hmiss]
  · rw [if_neg hmiss, hpm]

/-- Concrete bit sequence for the C7 witness: one sector-sync followed by
a five-byte header whose XOR is 1. -/
def c7bits : List Bool := bytesBits [0xd5, 0xaa, 0x96, 1, 0, 0, 0, 0]

/-- Witness for C7 at a concrete corrupted-header match. -/
theorem C7_bad_checksum_never_stores_witness :
    (∀ l, (idPrims.decode_mac_gcr l).length = l.length) ∧
    ((hdrAt idPrims c7bits 0).foldl Nat.xor 0 ≠ 0 ∨ (dataDecAt idPrims c7bits 0).2 ≠ 0) ∧
    (processMatch idPrims c7bits [none] 0 = .ok [none] ∧
      decodeLoop idPrims c7bits (0 :: []) [none] = decodeLoop idPrims c7bits [] [none]) :=
  ⟨fun _ => rfl, Or.inl (by decide),
    C7_bad_checksum_never_stores idPrims c7bits [none] 0 [] (fun _ => rfl) (Or.inl (by decide))⟩

theorem processMatch_cases (P : MacPrims) (bits : List Bool) (s : List (Option (List Nat)))
    (offs0 : Nat) (s2 : List (Option (List Nat)))
    (h : processMatch P bits s offs0 = .ok s2) :
    s2 = s ∨ ∃ i d, s.get? i = some none ∧ s2 = s.set i (some d) := by
  rw [processMatch] at h
  dsimp only at h
  split at h
  · exact Or.inl (Except.ok.inj h).symm
  · split at h
    · exact Or.inl (Except.ok.inj h).symm
    · split at h
      · split at h
        · exact Or.inl (Except.ok.inj h).symm
        · split at h
          · exact Or.inl (Except.ok.inj h).symm
          · rw [macAdd] at h
            split at h
            · exact Except.noConfusion h
            · exact Except.noConfusion h
            · rename_i heq
              exact Or.inr ⟨_, _, heq, (Except.ok.inj h).symm⟩
      · exact Except.noConfusion h

theorem decodeLoop_preserves (P : MacPrims) (bits : List Bool) :
    ∀ (offsets : List Nat) (s s2 : List (Option (List Nat))),
    decodeLoop P bits offsets s = .ok s2 →
    ∀ j b, s.get? j = some (some b) → s2.get? j = some (some b) := by
  intro offsets
  induction offsets with
  | nil =>
      intro s s2 h j b hj
      rw [← Except.ok.inj h]
      exact hj
  | cons o rest ih =>
      intro s s2 h j b hj
      rw [decodeLoop_cons] at h
      split at h
      · rw [← Except.ok.inj h]
        exact hj
      · split at h
        · exact Except.noConfusion h
        · rename_i s3 hpm
          rcases processMatch_cases P bits s o s3 hpm with rfl | ⟨i, d, hi, rfl⟩
          · exact ih s3 s2 h j b hj
          · refine ih _ s2 h j b ?_
            have hne : i ≠ j := by
              intro hcontra
              rw [hcontra, hj] at hi
              cases hi
            rw [List.get?_set_ne _ _ hne]
            exact hj

/-- C8: the decoder never changes an already-populated slot.  Whenever
`decode_raw` returns a table (rather than dying on the duplicate-store
assertion or an index error), every slot populated beforehand still holds
exactly its original buffer: each match either leaves the table unchanged,
stores into a previously empty slot, or fails the fatal assertion. -/
theorem C8_populated_slot_never_replaced (P : MacPrims) (t t2 : MacGCR) (bits : List Bool)
    (j : Nat) (b : List Nat)
    (hrun : MacGCR.decode_raw P t bits = .ok t2)
    (hslot : t.sector.get? j = some (some b)) :
    t2.sector.get? j = some (some b) := by
  rw [decode_raw_eq] at hrun
  split at hrun
  · exact Except.noConfusion hrun
  · rename_i s hs
    rw [← Except.ok.inj hrun]
    exact decodeLoop_preserves P bits _ t.sector s hs j b hslot

set_option maxRecDepth 200000 in
/-- Witness for C8 on a concrete populated table. -/
theorem C8_populated_slot_never_replaced_witness :
    MacGCR.decode_raw idPrims tEx1 [] = .ok tEx1 ∧
    tEx1.sector.get? 0 = some (some (List.replicate 524 0)) :=
  ⟨rfl, C8_populated_slot_never_replaced idPrims tEx1 tEx1 [] 0 (List.replicate 524 0)
    rfl (by decide)⟩

set_option maxRecDepth 200000 in
theorem dataOf_length (t : MacGCR) (id : Nat)
    (hpop : ∀ s ∈ t.sector, ∀ d, s = some d → d.length = 524) :
    (t.dataOf id).length = 524 := by
  rw [MacGCR.dataOf]
  cases hg : t.sector.getD id none with
  | none => decide
  | some d =>
      cases hlt : t.sector.get? id with
      | none =>
          rw [List.getD, hlt] at hg
          cases hg
      | some sd =>
          rw [List.getD, hlt] at hg
          simp at hg
          subst hg
          exact hpop (some d) (List.get?_mem hlt) d rfl

set_option maxRecDepth 200000 in
/-- C9: with the clock set and the encoded content fitting in one
rotation, the encoder output has bit length exactly `tlenBits clock` (the
nominal rotation bit count `time_per_rev / clock` rounded down to a
multiple of 32), with everything beyond the content being the 0x96 gap
filler.  The length depends only on the clock and the sector count, so
two tables of the same configuration always produce equal-length tracks
regardless of which slots are populated. -/
theorem C9_track_length (P : MacPrims) (t : MacGCR) (c : ℚ)
    (hlen : ∀ l, (P.encode_mac_gcr l).length = l.length)
    (hseclen : ∀ d : List Nat, d.length = 524 → (P.encode_mac_sector d).length = 703)
    (hclock : t.clock = some c)
    (hmaplen : t.sec_map.length = t.nsec)
    (hmem : ∀ id ∈ t.sec_map, id < t.sector.length)
    (hpop : ∀ s ∈ t.sector, ∀ d, s = some d → d.length = 524)
    (hfit : 8 * (188 + 764 * t.nsec) ≤ tlenBits c) :
    ∃ tb, MacGCR.raw_track P t = .ok tb ∧ 8 * tb.length = tlenBits c ∧
      tb.drop (188 + 764 * t.nsec) =
        List.replicate (tlenBits c / 8 - (188 + 764 * t.nsec)) 0x96 := by
  have htr := raw_track_ok P t c hclock hmem
  have hflat : ((t.sec_map.map
      (fun id => sectorBlock P t.cyl t.head id (t.dataOf id))).flatten).length
      = 764 * t.nsec := by
    rw [List.length_flatten, List.map_map]
    have hconst : t.sec_map.map
        (List.length ∘ fun id => sectorBlock P t.cyl t.head id (t.dataOf id))
        = List.replicate t.sec_map.length 764 := by
      rw [List.eq_replicate_iff]
      refine ⟨by rw [List.length_map], ?_⟩
      intro x hx
      obtain ⟨id, hid, rfl⟩ := List.mem_map.mp hx
      exact sectorBlock_length P hlen hseclen t.cyl t.head id (t.dataOf id)
        (dataOf_length t id hpop)
    rw [hconst, List.sum_replicate, smul_eq_mul, hmaplen]
    ring
  have hcontent : ((trackGap ++ (t.sec_map.map
      (fun id => sectorBlock P t.cyl t.head id (t.dataOf id))).flatten).length + 4)
      = 188 + 764 * t.nsec := by
    rw [List.length_append, hflat, show trackGap.length = 184 from by decide]
    ring
  have h32 : tlenBits c % 8 = 0 := by
    rw [tlenBits]
    omega
  have h4 : ([0xff, 0xff, 0xff, 0xff] : List Nat).length = 4 := by decide
  refine ⟨_, htr, ?_, ?_⟩
  · rw [List.length_append, List.length_append, List.length_replicate, hcontent]
    rw [h4]
    omega
  · have hcount : tlenBits c / 8 - ((trackGap ++ (t.sec_map.map
        (fun id => sectorBlock P t.cyl t.head id (t.dataOf id))).flatten).length + 4)
        = tlenBits c / 8 - (188 + 764 * t.nsec) := by
      rw [hcontent]
    have hclen : ((trackGap ++ (t.sec_map.map
        (fun id => sectorBlock P t.cyl t.head id (t.dataOf id))).flatten) ++
        [0xff, 0xff, 0xff, 0xff]).length = 188 + 764 * t.nsec := by
      rw [List.length_append, h4]
      omega
    rw [← hcount, ← hclen, List.drop_left]

theorem idPrims_sec_len : ∀ d : List Nat, d.length = 524 →
    (idPrims.encode_mac_sector d).length = 703 := by
  intro d hd
  show (d ++ List.replicate 179 0).length = 703
  rw [List.length_append, hd, List.length_replicate]

set_option maxRecDepth 200000 in
/-- Witness for C9 on the concrete one-sector table. -/
theorem C9_track_length_witness :
    tEx1.clock = some (1 / 38080) ∧
    tEx1.sec_map.length = tEx1.nsec ∧
    (∀ id ∈ tEx1.sec_map, id < tEx1.sector.length) ∧
    (∀ s ∈ tEx1.sector, ∀ d, s = some d → d.length = 524) ∧
    8 * (188 + 764 * tEx1.nsec) ≤ tlenBits (1 / 38080) ∧
    (∃ tb, MacGCR.raw_track idPrims tEx1 = .ok tb ∧
      8 * tb.length = tlenBits (1 / 38080) ∧
      tb.drop (188 + 764 * tEx1.nsec) =
        List.replicate (tlenBits (1 / 38080) / 8 - (188 + 764 * tEx1.nsec)) 0x96) := by
  have hpop : ∀ s ∈ tEx1.sector, ∀ d, s = some d → d.length = 524 := by
    intro s hs d hd
    simp [tEx1, freshEx1] at hs
    subst hs
    rw [← Option.some.inj hd]
    decide
  refine ⟨rfl, by decide, by decide, hpop, by rw [tlenBits_cfg1]; decide, ?_⟩
  exact C9_track_length idPrims tEx1 (1 / 38080) (fun _ => rfl) idPrims_sec_len rfl
    (by decide) (by decide) hpop (by rw [tlenBits_cfg1]; decide)

theorem foldl_set_range {α : Type} (f : Nat → α) :
    ∀ (n : Nat) (s0 : List α), n ≤ s0.length →
    (List.range n).foldl (fun s i => s.set i (f i)) s0
      = (List.range n).map f ++ s0.drop n := by
  intro n
  induction n with
  | zero => intro s0 _; simp
  | succ m ih =>
      intro s0 h
      rw [List.range_succ, List.foldl_append, List.map_append, ih s0 (by omega)]
      simp only [List.foldl_cons, List.foldl_nil, List.map_cons, List.map_nil]
      have hmlen : ((List.range m).map f).length = m := by
        rw [List.length_map, List.length_range]
      have hset : (((List.range m).map f) ++ s0.drop m).set m (f m)
          = ((List.range m).map f) ++ (s0.drop m).set 0 (f m) := by
        rw [List.set_append_right m (f m) (by omega), hmlen, Nat.sub_self]
      rw [hset]
      have hdrop : s0.drop m = s0[m] :: s0.drop (m + 1) :=
        List.drop_eq_getElem_cons (by omega)
      rw [hdrop, List.set_cons_zero]
      simp [List.append_assoc]

theorem foldl_append_eq {α β : Type} (g : β → List α) :
    ∀ (l : List β) (a : List α),
    l.foldl (fun acc x => acc ++ g x) a = a ++ (l.map g).flatten := by
  intro l
  induction l with
  | nil => intro a; simp
  | cons x t ih =>
      intro a
      rw [List.foldl_cons, ih, List.map_cons, List.flatten_cons, List.append_assoc]

theorem join_chunks : ∀ (n : Nat) (l : List Nat), l.length = n * 512 →
    ((List.range n).map (fun i => (l.drop (i * 512)).take 512)).flatten = l := by
  intro n
  induction n with
  | zero =>
      intro l h
      rw [List.range_zero, List.map_nil, List.flatten_nil]
      symm
      exact List.length_eq_zero.mp (by omega)
  | succ m ih =>
      intro l h
      rw [List.range_succ_eq_map, List.map_cons, List.map_map, List.flatten_cons]
      have hfn : ((fun i => (l.drop (i * 512)).take 512) ∘ Nat.succ)
          = fun i => ((l.drop 512).drop (i * 512)).take 512 := by
        funext i
        simp only [Function.comp, List.drop_drop]
        congr 2
        simp [Nat.succ_eq_add_one]
        ring
      rw [hfn, ih (l.drop 512) (by rw [List.length_drop]; omega)]
      simp

theorem set_img_track_eq (t : MacGCR) (tdat : List Nat)
    (hlen : t.sector.length = t.nsec) (hshort : tdat.length ≤ t.nsec * 512) :
    (t.set_img_track tdat).2.sector
      = (List.range t.nsec).map (fun i => some (List.replicate 12 0 ++
          (((tdat ++ List.replicate (t.nsec * 512 - tdat.length) 0).drop (i * 512)).take 512)))
      ∧ (t.set_img_track tdat).1 = t.nsec * 512 := by
  rw [MacGCR.set_img_track]
  dsimp only
  constructor
  swap
  · rfl
  have htd2 : (if tdat.length < t.nsec * 512
      then tdat ++ List.replicate (t.nsec * 512 - tdat.length) 0 else tdat)
      = tdat ++ List.replicate (t.nsec * 512 - tdat.length) 0 := by
    by_cases hc : tdat.length < t.nsec * 512
    · rw [if_pos hc]
    · rw [if_neg hc, show t.nsec * 512 - tdat.length = 0 from by omega,
        List.replicate_zero, List.append_nil]
  rw [htd2, foldl_set_range _ t.nsec t.sector (by omega),
    List.drop_eq_nil_of_le (by omega), List.append_nil]

/-- C6: importing a linear image of at most `nsec * 512` bytes reports
`nsec * 512` bytes consumed, fully populates the table, and a subsequent
export returns exactly the original bytes zero-padded to `nsec * 512`
(so an exact-length image round-trips unchanged). -/
theorem C6_img_roundtrip (t : MacGCR) (tdat : List Nat)
    (hlen : t.sector.length = t.nsec)
    (hshort : tdat.length ≤ t.nsec * 512) :
    (t.set_img_track tdat).1 = t.nsec * 512 ∧
    (t.set_img_track tdat).2.nr_missing = 0 ∧
    (t.set_img_track tdat).2.get_img_track
      = tdat ++ List.replicate (t.nsec * 512 - tdat.length) 0 ∧
    (tdat.length = t.nsec * 512 → (t.set_img_track tdat).2.get_img_track = tdat) := by
  obtain ⟨hsec, hfst⟩ := set_img_track_eq t tdat hlen hshort
  have hget : (t.set_img_track tdat).2.get_img_track
      = tdat ++ List.replicate (t.nsec * 512 - tdat.length) 0 := by
    rw [MacGCR.get_img_track, hsec, foldl_append_eq, List.map_map]
    have hfn : ((fun sec => match sec with
          | some s => s.drop 12
          | none => bad_sector) ∘ (fun i => some (List.replicate 12 0 ++
            (((tdat ++ List.replicate (t.nsec * 512 - tdat.length) 0).drop (i * 512)).take 512))))
        = fun i => (((tdat ++ List.replicate (t.nsec * 512 - tdat.length) 0).drop (i * 512)).take 512) := by
      funext i
      show (List.replicate 12 (0 : Nat) ++ _).drop 12 = _
      have h12 : (List.replicate 12 (0 : Nat)).length = 12 := by simp
      nth_rewrite 1 [← h12]
      exact List.drop_left _ _
    rw [hfn, join_chunks t.nsec _ (by rw [List.length_append, List.length_replicate]; omega)]
    rfl
  refine ⟨hfst, ?_, hget, fun hx => ?_⟩
  · rw [MacGCR.nr_missing, hsec, List.filter_map]
    simp [Function.comp, Option.isNone]
  · rw [hget, hx, Nat.sub_self, List.replicate_zero, List.append_nil]

set_option maxRecDepth 1000000 in
/-- Witness for C6: a one-sector table and a 300-byte (short) image. -/
theorem C6_img_roundtrip_witness :
    tEx1.sector.length = tEx1.nsec ∧
    (List.replicate 300 7).length ≤ tEx1.nsec * 512 ∧
    ((tEx1.set_img_track (List.replicate 300 7)).1 = tEx1.nsec * 512 ∧
      (tEx1.set_img_track (List.replicate 300 7)).2.nr_missing = 0 ∧
      (tEx1.set_img_track (List.replicate 300 7)).2.get_img_track
        = List.replicate 300 7 ++
          List.replicate (tEx1.nsec * 512 - (List.replicate 300 7).length) 0 ∧
      ((List.replicate 300 7).length = tEx1.nsec * 512 →
        (tEx1.set_img_track (List.replicate 300 7)).2.get_img_track
          = List.replicate 300 7)) :=
  ⟨by decide, by decide,
    C6_img_roundtrip tEx1 (List.replicate 300 7) (by decide) (by decide)⟩

/-! ## State-passing wrappers for the frame claim

Python methods mutate state only by assigning to `self` fields.  Each
wrapper below pairs a method's return value with the post-call state of
the receiver, read off the translated body: `summary_string`,
`nr_missing`, `has_sec`, `get_img_track` and `raw_track` contain no
assignment to `self.sector` (or any other field), so their post-state is
the receiver unchanged, whereas `set_img_track` and `decode_raw` return
updated tables. -/

def MacGCR.summary_stringS (t : MacGCR) : String × MacGCR := (t.summary_string, t)

def MacGCR.nr_missingS (t : MacGCR) : Nat × MacGCR := (t.nr_missing, t)

def MacGCR.has_secS (t : MacGCR) (i : Nat) : (Except PyErr Bool) × MacGCR := (t.has_sec i, t)

def MacGCR.get_img_trackS (t : MacGCR) : List Nat × MacGCR := (t.get_img_track, t)

def MacGCR.raw_trackS (P : MacPrims) (t : MacGCR) : (Except PyErr (List Nat)) × MacGCR :=
  (t.raw_track P, t)

/-- C10: the read and export operations leave every slot of the sector
table unchanged — their post-state equals the receiver — so exporting or
encoding any number of times never alters what a later export or encode
observes.  (Only `decode_raw` and `set_img_track` return changed
tables.) -/
theorem C10_read_ops_frame (P : MacPrims) (t : MacGCR) (i : Nat) :
    t.summary_stringS.2 = t ∧ t.nr_missingS.2 = t ∧ (t.has_secS i).2 = t ∧
    t.get_img_trackS.2 = t ∧ (MacGCR.raw_trackS P t).2 = t ∧
    (MacGCR.raw_trackS P t).2.get_img_track = t.get_img_track ∧
    t.get_img_trackS.2.get_img_track = t.get_img_track ∧
    (MacGCR.raw_trackS P t).2.raw_track P = t.raw_track P :=
  ⟨rfl, rfl, rfl, rfl, rfl, rfl, rfl, rfl⟩

/-- C2: `verify_track` never decodes (nor otherwise uses) the supplied
readback flux: on a fully populated table it returns `false` for every
possible readback, because it compares against a freshly constructed
empty table.  The claimed behaviour — success exactly when the decoded
readback matches — is unsatisfiable in the code as written. -/
theorem C2_verify_track_ignores_flux :
    tEx1.nr_missing = 0 ∧
    ∀ flux : List Bool, tEx1.verify_track flux = .ok false := by
  refine ⟨by decide, ?_⟩
  intro flux
  rfl

set_option maxRecDepth 1000000 in
/-- C3: an out-of-range sector id in an otherwise valid sync match is
fatal, not a mere diagnostic.  On a one-sector track, a match whose
header is checksum-valid but claims sector id 1, with a unique data-sync
and zero data residual, drives `add` into `self.sector[sec_id]` and the
decoder dies with an IndexError.  (The source even prints that it is
Ignoring the unexpected sector, but, lacking a `continue`, does not.) -/
theorem C3_out_of_range_id_fatal :
    (hdrAt idPrims bitsOutOfRange 0).foldl Nat.xor 0 = 0 ∧
    hdrAt idPrims bitsOutOfRange 0 = [0, 1, 0, 0x22, 0x23] ∧
    (dataDecAt idPrims bitsOutOfRange 0).2 = 0 ∧
    MacGCR.decode_raw idPrims freshEx1 bitsOutOfRange = .error .indexError := by
  have hh : rawHdrAt bitsOutOfRange 0 = [0, 1, 0, 0x22, 0x23] := by decide
  have hwin : datOffsAt bitsOutOfRange 0 = [80] := by
    rw [datOffsAt, bitsOutOfRange, show (0 + 8 * 8 : Nat) = 8 * 8 from rfl, bytesBits_drop,
      show (100 * 8 : Nat) = 8 * 100 from by norm_num, bytesBits_take,
      searchAll_eq_searchB8 _ _ (by decide) (by decide)]
    decide
  have hdat : dataDecAt idPrims bitsOutOfRange 0 = (List.replicate 524 0, 0) := by
    rw [dataDecAt, hwin, bitsOutOfRange,
      show (0 + 8 * 8 + List.headD [80] 0 + 4 * 8 : Nat) = 8 * 22 from by norm_num,
      bytesBits_drop, show (703 * 8 : Nat) = 8 * 703 from by norm_num, bytesBits_take]
    decide
  have hsearch : searchAll bitsOutOfRange sector_sync = [0] := by
    rw [bitsOutOfRange, searchAll_eq_searchB8 _ _ (by decide) (by decide)]
    decide
  have hpm : processMatch idPrims bitsOutOfRange [none] 0 = .error .indexError := by
    rw [processMatch, hh, hwin, hdat]
    decide
  refine ⟨by rw [hdrAt, hh]; decide, by rw [hdrAt, hh]; rfl, by rw [hdat], ?_⟩
  rw [decode_raw_eq, hsearch,
    show freshEx1.sector = [none] from rfl, decodeLoop_cons, if_neg (by decide), hpm]

/-- A configuration with both parameters set but never finalised. -/
def f4cex : MacGCRTrackFormat :=
  { secs := some 12, clock := some (1 / 500000), interleave := 2, finalised := false }

/-- C4: the claim is false — `mk_track` never consults `finalised`.  On
the non-finalised (but parameterised) configuration `f4cex` it happily
returns a sector table instead of failing. -/
theorem C4_counterexample :
    ¬ (∀ (f : MacGCRTrackFormat) (cyl head : Nat), f.finalised = false →
        ∃ e, f.mk_track cyl head = Except.error e) := by
  intro h
  obtain ⟨e, he⟩ := h f4cex 0 0 rfl
  have hok : ∃ t, f4cex.mk_track 0 0 = Except.ok t := ⟨_, rfl⟩
  obtain ⟨tt, htt⟩ := hok
  rw [he] at htt
  exact Except.noConfusion htt

/-- C4, amended: `mk_track` succeeds exactly when the sector count has
been assigned, whether or not the configuration was finalised (and even
with the clock unset); when `secs` is unset it fails with a TypeError
from `[None] * None`, not with the configuration error that only
`finalise` raises. -/
theorem C4_mk_track_amended (f : MacGCRTrackFormat) (cyl head : Nat) :
    (∃ t, f.mk_track cyl head = .ok t) ↔ f.secs ≠ none := by
  rw [MacGCRTrackFormat.mk_track, MacGCR.init]
  cases hs : f.secs with
  | none => simp
  | some n => simp
